import Mathlib

/-!
Verification of the Phoenix changed-function extraction and code-splicing
engine.  The Python sources are embedded shallowly: strings become
`List Char`, Python dicts become association lists with overwrite
semantics, and the character-indexed scanning loops become structural
recursion over the remaining character list.
-/

namespace Phoenix

/-! ### Python whitespace

`str.strip` / `str.rstrip` with no argument remove whitespace characters.
We model the ASCII whitespace set (space, tab, newline, carriage return,
vertical tab, form feed), which is what C++ sources contain. -/

def isPySpace (c : Char) : Bool :=
  c == ' ' || c == '\t' || c == '\n' || c == '\r' ||
    c == Char.ofNat 11 || c == Char.ofNat 12

/-! ### CommentHandler.RemoveComments (extract_function_code_2.py, lines 98-172)

The Python loop walks the text with an index `i` and, at a `//` occurrence,
inspects `text[text.rfind(chr(10), 0, i) + 1 : i]`, the portion of the
current physical line consumed so far.  The embedding keeps that portion as
an explicit accumulator `lp`: it is extended by every consumed character and
reset by a newline, which is exactly what the `rfind` recomputation yields. -/

/-- One step of the line-portion accumulator: a newline starts a fresh line,
any other consumed character is appended. -/
def updLine (lp : List Char) (c : Char) : List Char :=
  if c = '\n' then [] else lp ++ [c]

/-- Advance the line-portion accumulator over a consumed chunk. -/
def advLine (lp : List Char) (chunk : List Char) : List Char :=
  chunk.foldl updLine lp

/-- The inner block-comment loop: copy characters verbatim up to and
including the first closing marker, or to the end of input if the block is
unterminated.  Returns the copied characters and the remaining input. -/
def takeBlock : List Char → List Char × List Char
  | [] => ([], [])
  | '*' :: '/' :: rest => (['*', '/'], rest)
  | c :: cs =>
    let p := takeBlock cs
    (c :: p.1, p.2)

theorem takeBlock_append : ∀ cs : List Char, (takeBlock cs).1 ++ (takeBlock cs).2 = cs := by
  intro cs
  induction cs using takeBlock.induct <;> simp_all [takeBlock]

theorem takeBlock_snd_length_le : ∀ cs : List Char, (takeBlock cs).2.length ≤ cs.length := by
  intro cs
  induction cs using takeBlock.induct <;> simp_all [takeBlock] <;> omega

theorem dropWhile_length_le {α : Type} (p : α → Bool) :
    ∀ l : List α, (l.dropWhile p).length ≤ l.length := by
  intro l
  induction l with
  | nil => simp [List.dropWhile]
  | cons a l ih =>
    simp only [List.dropWhile]
    split <;> simp <;> omega

/-- The main scanning loop of `RemoveComments`.  `inStr` and `q` are the
`in_string` / `string_char` state variables; `lp` is the portion of the
current physical line consumed so far (see above).  Each branch mirrors one
branch of the Python `while` loop body. -/
def rmLoop (cs : List Char) (inStr : Bool) (q : Char) (lp : List Char) : List Char :=
  match cs with
  | [] => []
  | c :: rest =>
    if inStr then
      -- in_string: copy; a backslash consumes and copies the next character
      if c = '\\' then
        match rest with
        | [] => [c]
        | d :: rest2 => c :: d :: rmLoop rest2 true q (advLine lp [c, d])
      else if c = q then
        c :: rmLoop rest false q (updLine lp c)
      else
        c :: rmLoop rest true q (updLine lp c)
    else if c = '"' ∨ c = '\'' then
      -- quote opens a string
      c :: rmLoop rest true c (updLine lp c)
    else if c = '/' then
      match rest with
      | [] => [c]  -- final slash: i+1 = length, ordinary character
      | d :: rest2 =>
        if d = '/' then
          if lp.all isPySpace then
            -- from_start.strip() == chr(0): keep full-line // comment
            match h : rest2.dropWhile (fun x => x != '\n') with
            | [] => '/' :: '/' :: rest2.takeWhile (fun x => x != '\n')
            | nl :: rest3 =>
              '/' :: '/' :: (rest2.takeWhile (fun x => x != '\n') ++ nl :: rmLoop rest3 false q [])
          else
            -- drop inline // comment, keep the newline
            match h : rest2.dropWhile (fun x => x != '\n') with
            | [] => []
            | nl :: rest3 => nl :: rmLoop rest3 false q []
        else if d = '*' then
          -- block comment: always kept verbatim
          let p := takeBlock rest2
          '/' :: '*' :: (p.1 ++ rmLoop p.2 false q (advLine lp ('/' :: '*' :: p.1)))
        else
          c :: rmLoop (d :: rest2) false q (updLine lp c)
    else
      c :: rmLoop rest false q (updLine lp c)
termination_by cs.length
decreasing_by
  all_goals simp
  all_goals first
    | omega
    | (have h1 := dropWhile_length_le (fun x => x != '\n') rest2
       rw [h] at h1
       simp at h1
       omega)
    | (have h1 := takeBlock_snd_length_le rest2
       omega)

/-- `result.split(chr(10))`: split a character list at newlines; the result
always has one more piece than there are newline characters. -/
def splitNl : List Char → List (List Char)
  | [] => [[]]
  | c :: cs =>
    if c = '\n' then [] :: splitNl cs
    else
      match splitNl cs with
      | [] => [[c]]
      | l :: ls => (c :: l) :: ls

/-- `line.rstrip()`: remove trailing whitespace. -/
def rstripChars (l : List Char) : List Char :=
  (l.reverse.dropWhile isPySpace).reverse

/-- `chr(10).join(...)`. -/
def joinNl : List (List Char) → List Char
  | [] => []
  | [l] => l
  | l :: ls => l ++ '\n' :: joinNl ls

/-- `CommentHandler.RemoveComments`: run the scanning loop from the initial
state (`in_string = False`, empty current-line portion), then right-trim
every line of the result. -/
def RemoveComments (text : List Char) : List Char :=
  joinNl ((splitNl (rmLoop text false ' ' [])).map rstripChars)

/-! ### Line-count invariance of the stripper -/

/-- Number of newline characters in a character list. -/
def nlCount (l : List Char) : Nat := l.count '\n'

theorem nlCount_append (a b : List Char) : nlCount (a ++ b) = nlCount a + nlCount b := by
  simp [nlCount]

theorem nlCount_takeWhile_ne (l : List Char) :
    nlCount (l.takeWhile (fun x => x != '\n')) = 0 := by
  induction l with
  | nil => rfl
  | cons a l ih =>
    simp only [List.takeWhile_cons]
    split
    · rename_i h
      simp only [bne_iff_ne, ne_eq, decide_eq_true_eq] at h
      simp [nlCount, List.count_cons] at ih ⊢
      simp [ih, h]
    · rfl

theorem dropWhile_nl_head {rest2 : List Char} {nl : Char} {rest3 : List Char}
    (h : rest2.dropWhile (fun x => x != '\n') = nl :: rest3) : nl = '\n' := by
  have h1 := List.head?_dropWhile_not (fun x => x != '\n') rest2
  rw [h] at h1
  simpa using h1

/-! Unfolding equations for each branch of `rmLoop`. -/

theorem rmLoop_nil (b : Bool) (q : Char) (lp : List Char) : rmLoop [] b q lp = [] := by
  rw [rmLoop]

theorem rmLoop_esc_eof (q : Char) (lp : List Char) : rmLoop ['\\'] true q lp = ['\\'] := by
  rw [rmLoop]
  simp

theorem rmLoop_esc (q d : Char) (lp rest : List Char) :
    rmLoop ('\\' :: d :: rest) true q lp
      = '\\' :: d :: rmLoop rest true q (advLine lp ['\\', d]) := by
  rw [rmLoop]
  simp

theorem rmLoop_str_close (q : Char) (lp rest : List Char) (h : q ≠ '\\') :
    rmLoop (q :: rest) true q lp = q :: rmLoop rest false q (updLine lp q) := by
  rw [rmLoop.eq_def]
  simp [h]

theorem rmLoop_str_char (c q : Char) (lp rest : List Char) (h1 : c ≠ '\\') (h2 : c ≠ q) :
    rmLoop (c :: rest) true q lp = c :: rmLoop rest true q (updLine lp c) := by
  rw [rmLoop.eq_def]
  simp [h1, h2]

theorem rmLoop_quote (c q : Char) (lp rest : List Char) (h : c = '"' ∨ c = '\'') :
    rmLoop (c :: rest) false q lp = c :: rmLoop rest true c (updLine lp c) := by
  rw [rmLoop.eq_def]
  rcases h with h | h <;> simp [h]

theorem rmLoop_slash_eof (q : Char) (lp : List Char) :
    rmLoop ['/'] false q lp = ['/'] := by
  rw [rmLoop]
  simp

theorem rmLoop_keep (q nl : Char) (lp rest2 rest3 : List Char)
    (hws : lp.all isPySpace = true)
    (h : rest2.dropWhile (fun x => x != '\n') = nl :: rest3) :
    rmLoop ('/' :: '/' :: rest2) false q lp
      = '/' :: '/' ::
          (rest2.takeWhile (fun x => x != '\n') ++ nl :: rmLoop rest3 false q []) := by
  rw [rmLoop]
  have hq : ¬(('/' : Char) = '"' ∨ ('/' : Char) = '\'') := by decide
  simp only [hq, hws, if_true, if_false, Bool.false_eq_true, if_pos rfl]
  split
  · rename_i heq
    rw [heq] at h
    exact absurd h (by simp)
  · rename_i nl2 rest4 heq
    rw [heq] at h
    injection h with e1 e2
    subst e1
    subst e2
    rfl

theorem rmLoop_keep_eof (q : Char) (lp rest2 : List Char)
    (hws : lp.all isPySpace = true)
    (h : rest2.dropWhile (fun x => x != '\n') = []) :
    rmLoop ('/' :: '/' :: rest2) false q lp
      = '/' :: '/' :: rest2.takeWhile (fun x => x != '\n') := by
  rw [rmLoop]
  have hq : ¬(('/' : Char) = '"' ∨ ('/' : Char) = '\'') := by decide
  simp only [hq, hws, if_true, if_false, Bool.false_eq_true, if_pos rfl]
  split
  · rfl
  · rename_i nl2 rest4 heq
    rw [heq] at h
    exact absurd h (by simp)

theorem rmLoop_drop (q nl : Char) (lp rest2 rest3 : List Char)
    (hws : lp.all isPySpace = false)
    (h : rest2.dropWhile (fun x => x != '\n') = nl :: rest3) :
    rmLoop ('/' :: '/' :: rest2) false q lp = nl :: rmLoop rest3 false q [] := by
  rw [rmLoop]
  have hq : ¬(('/' : Char) = '"' ∨ ('/' : Char) = '\'') := by decide
  simp only [hq, hws, if_true, if_false, Bool.false_eq_true, if_pos rfl]
  split
  · rename_i heq
    rw [heq] at h
    exact absurd h (by simp)
  · rename_i nl2 rest4 heq
    rw [heq] at h
    injection h with e1 e2
    subst e1
    subst e2
    rfl

theorem rmLoop_drop_eof (q : Char) (lp rest2 : List Char)
    (hws : lp.all isPySpace = false)
    (h : rest2.dropWhile (fun x => x != '\n') = []) :
    rmLoop ('/' :: '/' :: rest2) false q lp = [] := by
  rw [rmLoop]
  have hq : ¬(('/' : Char) = '"' ∨ ('/' : Char) = '\'') := by decide
  simp only [hq, hws, if_true, if_false, Bool.false_eq_true, if_pos rfl]
  split
  · rfl
  · rename_i nl2 rest4 heq
    rw [heq] at h
    exact absurd h (by simp)

theorem rmLoop_block (q : Char) (lp rest2 : List Char) :
    rmLoop ('/' :: '*' :: rest2) false q lp
      = '/' :: '*' ::
          ((takeBlock rest2).1 ++
            rmLoop (takeBlock rest2).2 false q
              (advLine lp ('/' :: '*' :: (takeBlock rest2).1))) := by
  rw [rmLoop]
  have hq : ¬(('/' : Char) = '"' ∨ ('/' : Char) = '\'') := by decide
  have h1 : ¬(('*' : Char) = '/') := by decide
  simp [hq, h1]

theorem rmLoop_slash (q d : Char) (lp rest2 : List Char) (h1 : d ≠ '/') (h2 : d ≠ '*') :
    rmLoop ('/' :: d :: rest2) false q lp
      = '/' :: rmLoop (d :: rest2) false q (updLine lp '/') := by
  rw [rmLoop]
  have hq : ¬(('/' : Char) = '"' ∨ ('/' : Char) = '\'') := by decide
  simp [hq, h1, h2]

theorem rmLoop_char (c q : Char) (lp rest : List Char)
    (h1 : ¬(c = '"' ∨ c = '\'')) (h2 : c ≠ '/') :
    rmLoop (c :: rest) false q lp = c :: rmLoop rest false q (updLine lp c) := by
  rw [rmLoop.eq_def]
  simp [h1, h2]

/-! Newline-count preservation helpers. -/

theorem nlCount_cons (c : Char) (l : List Char) :
    nlCount (c :: l) = nlCount l + if c = '\n' then 1 else 0 := by
  by_cases h : c = '\n' <;> simp [nlCount, List.count_cons, h]

theorem nlCount_line_cons {rest2 rest3 : List Char} {nl : Char}
    (h : rest2.dropWhile (fun x => x != '\n') = nl :: rest3) :
    nlCount rest2 = nlCount rest3 + 1 := by
  have hnl := dropWhile_nl_head h
  have htw := nlCount_takeWhile_ne rest2
  have hsplit := List.takeWhile_append_dropWhile (fun x => x != '\n') rest2
  have hc : nlCount (rest2.takeWhile (fun x => x != '\n')) +
      nlCount (rest2.dropWhile (fun x => x != '\n')) = nlCount rest2 := by
    rw [← nlCount_append, hsplit]
  rw [h, htw, nlCount_cons, hnl] at hc
  simp at hc
  omega

theorem nlCount_line_nil {rest2 : List Char}
    (h : rest2.dropWhile (fun x => x != '\n') = []) :
    nlCount (rest2.takeWhile (fun x => x != '\n')) = nlCount rest2 := by
  have hsplit := List.takeWhile_append_dropWhile (fun x => x != '\n') rest2
  rw [h, List.append_nil] at hsplit
  rw [hsplit]

theorem nlCount_takeBlock (rest2 : List Char) :
    nlCount (takeBlock rest2).1 + nlCount (takeBlock rest2).2 = nlCount rest2 := by
  rw [← nlCount_append, takeBlock_append]

theorem rmLoop_nlCount (cs : List Char) (b : Bool) (q : Char) (lp : List Char) :
    nlCount (rmLoop cs b q lp) = nlCount cs := by
  have hsl : ('/' : Char) ≠ '\n' := by decide
  have hst : ('*' : Char) ≠ '\n' := by decide
  induction cs, b, q, lp using rmLoop.induct with
  | case1 b q lp => rw [rmLoop_nil]
  | case2 q lp => rw [rmLoop_esc_eof]
  | case3 q lp d rest2 ih =>
    rw [rmLoop_esc, nlCount_cons, nlCount_cons, nlCount_cons, nlCount_cons, ih]
  | case4 lp d rest2 h ih =>
    rw [rmLoop_str_close d lp rest2 h, nlCount_cons, nlCount_cons, ih]
  | case5 q lp d rest2 h1 h2 ih =>
    rw [rmLoop_str_char d q lp rest2 h1 h2, nlCount_cons, nlCount_cons, ih]
  | case6 b q lp d rest2 hb h ih =>
    simp only [Bool.not_eq_true] at hb
    subst hb
    rw [rmLoop_quote d q lp rest2 h, nlCount_cons, nlCount_cons, ih]
  | case7 b q lp hb h =>
    simp only [Bool.not_eq_true] at hb
    subst hb
    rw [rmLoop_slash_eof]
  | case8 b q lp hb rest2 hws h hq =>
    simp only [Bool.not_eq_true] at hb
    subst hb
    rw [rmLoop_keep_eof q lp rest2 hws h]
    rw [nlCount_cons, nlCount_cons, nlCount_cons, nlCount_cons, nlCount_line_nil h]
  | case9 b q lp hb rest2 hws nl rest3 h hq ih =>
    simp only [Bool.not_eq_true] at hb
    subst hb
    rw [rmLoop_keep q nl lp rest2 rest3 hws h]
    have hnl := dropWhile_nl_head h
    have hr2 := nlCount_line_cons h
    have htw := nlCount_takeWhile_ne rest2
    subst hnl
    rw [nlCount_cons, nlCount_cons, nlCount_append, nlCount_cons, htw, ih,
      nlCount_cons, nlCount_cons, hr2]
    simp [hsl]
  | case10 b q lp hb rest2 hws h hq =>
    simp only [Bool.not_eq_true] at hb
    subst hb
    simp only [Bool.not_eq_true] at hws
    rw [rmLoop_drop_eof q lp rest2 hws h]
    have htw := nlCount_takeWhile_ne rest2
    rw [nlCount_line_nil h] at htw
    rw [nlCount_cons, nlCount_cons, htw]
    simp [hsl, nlCount]
  | case11 b q lp hb rest2 hws nl rest3 h hq ih =>
    simp only [Bool.not_eq_true] at hb
    subst hb
    simp only [Bool.not_eq_true] at hws
    rw [rmLoop_drop q nl lp rest2 rest3 hws h]
    have hnl := dropWhile_nl_head h
    have hr2 := nlCount_line_cons h
    subst hnl
    rw [nlCount_cons, ih, nlCount_cons, nlCount_cons, hr2]
    simp [hsl]
  | case12 b q lp hb rest2 p hq hstar ih =>
    simp only [Bool.not_eq_true] at hb
    subst hb
    have hp : p = takeBlock rest2 := rfl
    rw [hp] at ih
    rw [rmLoop_block q lp rest2]
    have hblk := nlCount_takeBlock rest2
    rw [nlCount_cons, nlCount_cons, nlCount_append, ih, nlCount_cons, nlCount_cons]
    simp [hsl, hst]
    omega
  | case13 b q lp hb d rest2 h1 h2 hq ih =>
    simp only [Bool.not_eq_true] at hb
    subst hb
    rw [rmLoop_slash q d lp rest2 h1 h2, nlCount_cons, ih, nlCount_cons,
      nlCount_cons, nlCount_cons]
  | case14 b q lp d rest2 hb h1 h2 ih =>
    simp only [Bool.not_eq_true] at hb
    subst hb
    rw [rmLoop_char d q lp rest2 h1 h2, nlCount_cons, nlCount_cons, ih]

theorem splitNl_ne_nil (l : List Char) : splitNl l ≠ [] := by
  induction l with
  | nil => simp [splitNl]
  | cons c cs ih =>
    simp only [splitNl]
    split
    · simp
    · split <;> simp

theorem splitNl_length (l : List Char) : (splitNl l).length = nlCount l + 1 := by
  induction l with
  | nil => simp [splitNl, nlCount]
  | cons c cs ih =>
    by_cases h : c = '\n'
    · simp [splitNl, h, nlCount, List.count_cons] at ih ⊢
      omega
    · simp only [splitNl, if_neg h]
      cases h2 : splitNl cs with
      | nil => exact absurd h2 (splitNl_ne_nil cs)
      | cons p ps =>
        rw [h2] at ih
        simp [nlCount, List.count_cons, h] at ih ⊢
        simpa [h] using ih

theorem mem_splitNl_no_nl (l : List Char) : ∀ p ∈ splitNl l, '\n' ∉ p := by
  induction l with
  | nil =>
    intro p hp
    simp [splitNl] at hp
    simp [hp]
  | cons c cs ih =>
    intro p hp
    by_cases h : c = '\n'
    · simp [splitNl, h] at hp
      rcases hp with hp | hp
      · simp [hp]
      · exact ih p hp
    · simp only [splitNl, if_neg h] at hp
      cases h2 : splitNl cs with
      | nil => exact absurd h2 (splitNl_ne_nil cs)
      | cons q qs =>
        rw [h2] at hp
        simp only [List.mem_cons] at hp
        rcases hp with hp | hp
        · subst hp
          intro hmem
          rcases List.mem_cons.mp hmem with h3 | h3
          · exact h h3.symm
          · exact ih q (h2 ▸ List.mem_cons_self q qs) h3
        · exact ih p (h2 ▸ List.mem_cons_of_mem q hp)

theorem nl_not_mem_rstrip {l : List Char} (h : '\n' ∉ l) : '\n' ∉ rstripChars l := by
  intro hmem
  apply h
  have h1 : '\n' ∈ l.reverse.dropWhile isPySpace := by
    simpa [rstripChars] using hmem
  have h2 : '\n' ∈ l.reverse := (List.dropWhile_sublist isPySpace).mem h1
  simpa using h2

theorem joinNl_nlCount : ∀ ps : List (List Char), ps ≠ [] → (∀ p ∈ ps, '\n' ∉ p) →
    nlCount (joinNl ps) = ps.length - 1 := by
  intro ps
  induction ps with
  | nil => simp
  | cons p ps ih =>
    intro _ hmem
    cases ps with
    | nil =>
      have : nlCount p = 0 := by
        simp [nlCount, List.count_eq_zero]
        exact hmem p (List.mem_cons_self p [])
      simpa [joinNl] using this
    | cons q qs =>
      have hp : nlCount p = 0 := by
        simp [nlCount, List.count_eq_zero]
        exact hmem p (by simp)
      have hrest := ih (by simp) (fun r hr => hmem r (List.mem_cons_of_mem p hr))
      show nlCount (p ++ '\n' :: joinNl (q :: qs)) = (p :: q :: qs).length - 1
      rw [nlCount_append]
      simp [nlCount, List.count_cons] at hrest ⊢
      simp [nlCount] at hp
      omega

theorem RemoveComments_nlCount (text : List Char) :
    nlCount (RemoveComments text) = nlCount text := by
  unfold RemoveComments
  have h1 : ((splitNl (rmLoop text false ' ' [])).map rstripChars) ≠ [] := by
    simpa using splitNl_ne_nil (rmLoop text false ' ' [])
  have h2 : ∀ p ∈ (splitNl (rmLoop text false ' ' [])).map rstripChars, '\n' ∉ p := by
    intro p hp
    rcases List.mem_map.mp hp with ⟨r, hr, hpr⟩
    exact hpr ▸ nl_not_mem_rstrip (mem_splitNl_no_nl _ r hr)
  rw [joinNl_nlCount _ h1 h2]
  simp [splitNl_length, rmLoop_nlCount]

/-- C2: for every input string, the comment stripper output has exactly the
same number of lines as the input — splitting both at newline characters
yields equally many pieces, so no newline is added or removed and line
numbers are stable. -/
theorem c2_line_count_invariance (text : List Char) :
    (splitNl (RemoveComments text)).length = (splitNl text).length := by
  rw [splitNl_length, splitNl_length, RemoveComments_nlCount]

/-! ### String-literal boundary safety -/

theorem advLine_nil (lp : List Char) : advLine lp [] = lp := rfl

theorem advLine_cons (lp : List Char) (c : Char) (cs : List Char) :
    advLine lp (c :: cs) = advLine (updLine lp c) cs := rfl

theorem advLine_append (lp : List Char) (a b : List Char) :
    advLine lp (a ++ b) = advLine (advLine lp a) b := by
  simp [advLine, List.foldl_append]

/-- String content as consumed by the in-string branch of the scanner: a
sequence of characters none of which is an unescaped occurrence of the
closing quote `q`; a backslash always consumes (escapes) the following
character, whatever it is. -/
def isStrContent (q : Char) : List Char → Bool
  | [] => true
  | ['\\'] => false
  | '\\' :: _ :: cs => isStrContent q cs
  | c :: cs => (c != q) && isStrContent q cs

theorem isStrContent_esc (q d : Char) (cs : List Char) :
    isStrContent q ('\\' :: d :: cs) = isStrContent q cs := rfl

theorem isStrContent_char (q c : Char) (cs : List Char) (h : c ≠ '\\') :
    isStrContent q (c :: cs) = ((c != q) && isStrContent q cs) := by
  rw [isStrContent.eq_def]
  cases cs with
  | nil => simp [h]
  | cons a l => simp [h]

/-- While in the in-string state, the scanner copies string content
verbatim and stays in the in-string state, regardless of what the content
contains (including comment-like character sequences and newlines). -/
theorem rmLoop_inString (q : Char) :
    ∀ w : List Char, isStrContent q w = true →
      ∀ rest lp : List Char,
        rmLoop (w ++ rest) true q lp = w ++ rmLoop rest true q (advLine lp w) := by
  intro w
  induction w using isStrContent.induct q with
  | case1 =>
    intro _ rest lp
    simp [advLine_nil]
  | case2 =>
    intro hw
    exact absurd hw (by simp [isStrContent])
  | case3 d cs ih =>
    intro hw rest lp
    rw [isStrContent_esc] at hw
    simp only [List.cons_append]
    rw [rmLoop_esc, ih hw rest (advLine lp ['\\', d]), advLine_cons, advLine_cons]
    rfl
  | case4 c cs h1 h2 ih =>
    intro hw rest lp
    have hc : c ≠ '\\' := by
      intro h
      cases cs with
      | nil => exact h1 h rfl
      | cons a l => exact h2 a l h rfl
    rw [isStrContent_char q c cs hc] at hw
    simp only [Bool.and_eq_true, bne_iff_ne, ne_eq] at hw
    obtain ⟨hcq, hcs⟩ := hw
    simp only [List.cons_append]
    rw [rmLoop_str_char c q lp (cs ++ rest) hc hcq, ih hcs rest (updLine lp c), advLine_cons]

theorem quote_ne_backslash {q : Char} (hq : q = '"' ∨ q = '\'') : q ≠ '\\' := by
  rcases hq with hq | hq <;> subst hq <;> decide

/-- A string that closes with its matching unescaped quote: the content and
the closing quote are copied verbatim, and the scanner returns to the
normal state for the remaining input. -/
theorem rmLoop_string_close (q : Char) (hq : q = '"' ∨ q = '\'')
    (w rest lp : List Char) (hw : isStrContent q w = true) :
    rmLoop (w ++ q :: rest) true q lp
      = w ++ q :: rmLoop rest false q (advLine lp (w ++ [q])) := by
  rw [rmLoop_inString q w hw (q :: rest) lp,
    rmLoop_str_close q (advLine lp w) rest (quote_ne_backslash hq), advLine_append]
  rfl

/-- A string that never closes: the scanner copies the rest of the input
verbatim (fail-soft behaviour at end of input). -/
theorem rmLoop_string_eoi (q : Char) (w lp : List Char) (hw : isStrContent q w = true) :
    rmLoop w true q lp = w := by
  have := rmLoop_inString q w hw [] lp
  simpa [rmLoop_nil] using this

/-- C3: a `//` or `/*` sequence occurring inside a string literal is never
treated as a comment start.  From the normal state, an opening quote, any
string content `w` (which may freely contain `//` and `/*`), and the
matching closing quote are copied to the output verbatim; backslash-escaped
characters inside the string are consumed and copied without leaving the
in-string state (escape pairs are part of `isStrContent`), and scanning
resumes in the normal state only after the closing quote. -/
theorem c3_string_boundary (q0 q : Char) (hq : q = '"' ∨ q = '\'')
    (w rest lp : List Char) (hw : isStrContent q w = true) :
    rmLoop (q :: (w ++ q :: rest)) false q0 lp
      = q :: (w ++ q :: rmLoop rest false q (advLine lp (q :: (w ++ [q])))) := by
  rw [rmLoop_quote q q0 lp (w ++ q :: rest) hq,
    rmLoop_string_close q hq w rest (updLine lp q) hw, advLine_cons]

/-- Witness for C3 on the spec example `s = "http://example.com";`: the
URL slashes inside the string are copied verbatim, not stripped. -/
theorem c3_string_boundary_witness :
    isStrContent '"' "http://example.com".toList = true ∧
    rmLoop ('"' :: ("http://example.com".toList ++ '"' :: [';'])) false ' ' []
      = '"' :: ("http://example.com".toList ++ '"' ::
          rmLoop [';'] false '"' (advLine [] ('"' :: ("http://example.com".toList ++ ['"'])))) :=
  ⟨by decide, c3_string_boundary ' ' '"' (Or.inl rfl) "http://example.com".toList [';'] [] (by decide)⟩

/-- C10: the in-string state opened by a quote persists across newline
characters until a matching unescaped quote, or to the end of input.  For
content `w` with no unescaped closing quote (newlines, `//` and `/*`
allowed), everything up to and including the closing quote is copied
verbatim and never stripped; with no closing quote at all, the whole
remaining input is copied verbatim. -/
theorem c10_string_state_across_newlines (q : Char) (hq : q = '"' ∨ q = '\'')
    (w rest lp lp2 : List Char) (hw : isStrContent q w = true) :
    rmLoop (w ++ q :: rest) true q lp
        = w ++ q :: rmLoop rest false q (advLine lp (w ++ [q]))
      ∧ rmLoop w true q lp2 = w :=
  ⟨rmLoop_string_close q hq w rest lp hw, rmLoop_string_eoi q w lp2 hw⟩

/-- Witness for C10: string content spanning two newlines and containing
both `//` and `/*` is copied verbatim, with and without a closing quote. -/
theorem c10_witness :
    isStrContent '\'' ['a', '\n', '/', '/', 'x', '\n', '/', '*', 'b'] = true ∧
    (rmLoop (['a', '\n', '/', '/', 'x', '\n', '/', '*', 'b'] ++ '\'' :: ['c']) true '\'' []
        = ['a', '\n', '/', '/', 'x', '\n', '/', '*', 'b'] ++ '\'' ::
            rmLoop ['c'] false '\''
              (advLine [] (['a', '\n', '/', '/', 'x', '\n', '/', '*', 'b'] ++ ['\'']))
      ∧ rmLoop ['a', '\n', '/', '/', 'x', '\n', '/', '*', 'b'] true '\'' [] =
          ['a', '\n', '/', '/', 'x', '\n', '/', '*', 'b']) :=
  ⟨by decide,
   c10_string_state_across_newlines '\'' (Or.inr rfl)
     ['a', '\n', '/', '/', 'x', '\n', '/', '*', 'b'] ['c'] [] [] (by decide)⟩

/-! ### Full-line versus inline trailing `//` comments -/

/-- C4: at a `//` occurrence in the normal state, with `lp` the text of the
current physical line before the `//` and `cmt` the comment text up to the
next newline: if `lp` is all whitespace the comment is preserved verbatim
(including the `//` marker) through the end of the line, otherwise
everything from `//` to the end of the line is dropped but the newline is
kept. -/
theorem c4_line_comment_handling (q : Char) (lp cmt rest : List Char)
    (hcmt : ∀ c ∈ cmt, c ≠ '\n') :
    (lp.all isPySpace = true →
      rmLoop ('/' :: '/' :: (cmt ++ '\n' :: rest)) false q lp
        = '/' :: '/' :: (cmt ++ '\n' :: rmLoop rest false q []))
    ∧ (lp.all isPySpace = false →
      rmLoop ('/' :: '/' :: (cmt ++ '\n' :: rest)) false q lp
        = '\n' :: rmLoop rest false q []) := by
  have hpos : ∀ c ∈ cmt, (fun x => x != '\n') c := by
    intro c hc
    simpa using hcmt c hc
  have hdw : (cmt ++ '\n' :: rest).dropWhile (fun x => x != '\n') = '\n' :: rest := by
    rw [List.dropWhile_append_of_pos hpos, List.dropWhile_cons]
    simp
  have htw : (cmt ++ '\n' :: rest).takeWhile (fun x => x != '\n') = cmt := by
    rw [List.takeWhile_append_of_pos hpos, List.takeWhile_cons]
    simp
  constructor
  · intro hws
    rw [rmLoop_keep q '\n' lp (cmt ++ '\n' :: rest) rest hws hdw, htw]
  · intro hws
    rw [rmLoop_drop q '\n' lp (cmt ++ '\n' :: rest) rest hws hdw]

/-- Witness for C4: `// note` after code (`lp` non-blank) is dropped with
the newline kept; the same comment on an otherwise blank line is preserved
verbatim. -/
theorem c4_witness :
    rmLoop ('/' :: '/' :: ([' ', 'n'] ++ '\n' :: ['x'])) false ' ' [' ', '\t']
        = '/' :: '/' :: ([' ', 'n'] ++ '\n' :: rmLoop ['x'] false ' ' []) ∧
    rmLoop ('/' :: '/' :: ([' ', 'n'] ++ '\n' :: ['x'])) false ' ' ['x', ' ']
        = '\n' :: rmLoop ['x'] false ' ' [] :=
  ⟨(c4_line_comment_handling ' ' [' ', '\t'] [' ', 'n'] ['x'] (by decide)).1 (by decide),
   (c4_line_comment_handling ' ' ['x', ' '] [' ', 'n'] ['x'] (by decide)).2 (by decide)⟩

/-! ### FunctionExtractor.ExtractFunctions (get_git_changes.py, lines 54-98)

A function map is the Python dict built by `functions[key] = (hash, line)`:
an association list in which assignment overwrites the value of an existing
key in place and otherwise appends a fresh binding.  Keys are declarator
texts, values are (content digest, 1-based start line).  The tree-sitter
captures are modelled as a list of records in capture order; the MD5 digest
is an opaque parameter. -/

abbrev Key := List Char

abbrev FuncDict := List (Key × (List Char × Nat))

/-- Python dict assignment `m[k] = v`. -/
def dictSet (m : FuncDict) (k : Key) (v : List Char × Nat) : FuncDict :=
  match m with
  | [] => [(k, v)]
  | (k2, v2) :: rest => if k2 = k then (k, v) :: rest else (k2, v2) :: dictSet rest k v

/-- `text.strip()`. -/
def pyStrip (l : List Char) : List Char :=
  rstripChars (l.dropWhile isPySpace)

/-- One captured `function_definition` node, in capture order:
whether its body is a compound statement, the declarator text (if a
declarator child exists), the text that gets hashed (the node text, or the
enclosing template declaration text), and the 0-based start row. -/
structure CapturedFn where
  hasCompoundBody : Bool
  declText : Option (List Char)
  funcText : List Char
  startRow : Nat
  deriving DecidableEq

/-- Processing of one captured node: skip nodes without a compound body or
declarator, otherwise `functions[key] = (digest(func_text), start_line)`. -/
def extractStep (digest : List Char → List Char) (m : FuncDict) (n : CapturedFn) : FuncDict :=
  if n.hasCompoundBody then
    match n.declText with
    | some d => dictSet m (pyStrip d) (digest n.funcText, n.startRow + 1)
    | none => m
  else m

/-- `FunctionExtractor.ExtractFunctions`. -/
def ExtractFunctions (digest : List Char → List Char) (nodes : List CapturedFn) : FuncDict :=
  nodes.foldl (extractStep digest) []

/-- The captured nodes that contribute key `k`. -/
def nodeKeyed (k : Key) (n : CapturedFn) : Bool :=
  n.hasCompoundBody && (n.declText.map pyStrip == some k)

def keyedNodes (k : Key) (nodes : List CapturedFn) : List CapturedFn :=
  nodes.filter (nodeKeyed k)

/-- Number of entries of a function map carrying key `k`. -/
def countKey (m : FuncDict) (k : Key) : Nat :=
  (m.filter (fun e => e.1 == k)).length

theorem lookup_cons_self {k : Key} {v : List Char × Nat} {rest : FuncDict} :
    List.lookup k ((k, v) :: rest) = some v := by
  simp [List.lookup_cons]

theorem lookup_cons_ne {k k2 : Key} (h : k ≠ k2) {v : List Char × Nat} {rest : FuncDict} :
    List.lookup k ((k2, v) :: rest) = List.lookup k rest := by
  have hb : (k == k2) = false := by simpa using h
  simp [List.lookup_cons, hb]

theorem dictSet_lookup_self (m : FuncDict) (k : Key) (v : List Char × Nat) :
    List.lookup k (dictSet m k v) = some v := by
  induction m with
  | nil => simp [dictSet, lookup_cons_self]
  | cons e rest ih =>
    obtain ⟨k2, v2⟩ := e
    by_cases h : k2 = k
    · simp [dictSet, h, lookup_cons_self]
    · rw [dictSet, if_neg h, lookup_cons_ne (Ne.symm h)]
      exact ih

theorem dictSet_lookup_ne (m : FuncDict) (k k2 : Key) (v : List Char × Nat)
    (h : k2 ≠ k) : List.lookup k2 (dictSet m k v) = List.lookup k2 m := by
  induction m with
  | nil => simp [dictSet, lookup_cons_ne h]
  | cons e rest ih =>
    obtain ⟨k3, v3⟩ := e
    by_cases h2 : k3 = k
    · subst h2
      rw [dictSet, if_pos rfl, lookup_cons_ne h, lookup_cons_ne h]
    · by_cases h3 : k2 = k3
      · subst h3
        rw [dictSet, if_neg h2, lookup_cons_self, lookup_cons_self]
      · rw [dictSet, if_neg h2, lookup_cons_ne h3, lookup_cons_ne h3]
        exact ih

theorem dictSet_keys_mem (m : FuncDict) (k : Key) (v : List Char × Nat) :
    ∀ k2 ∈ (dictSet m k v).map Prod.fst, k2 ∈ m.map Prod.fst ∨ k2 = k := by
  induction m with
  | nil => simp [dictSet]
  | cons e rest ih =>
    obtain ⟨k3, v3⟩ := e
    by_cases h : k3 = k
    · subst h
      intro k2 hk2
      rw [dictSet, if_pos rfl] at hk2
      simp only [List.map_cons, List.mem_cons] at hk2 ⊢
      tauto
    · intro k2 hk2
      simp only [dictSet, if_neg h, List.map_cons, List.mem_cons] at hk2
      rcases hk2 with hk2 | hk2
      · simp [hk2]
      · rcases ih k2 hk2 with h2 | h2
        · simp [h2]
        · simp [h2]

theorem dictSet_keys_nodup (m : FuncDict) (k : Key) (v : List Char × Nat)
    (h : (m.map Prod.fst).Nodup) : ((dictSet m k v).map Prod.fst).Nodup := by
  induction m with
  | nil => simp [dictSet]
  | cons e rest ih =>
    obtain ⟨k3, v3⟩ := e
    simp only [List.map_cons, List.nodup_cons] at h
    by_cases h2 : k3 = k
    · subst h2
      simp [dictSet, h.1, h.2]
    · simp only [dictSet, if_neg h2, List.map_cons, List.nodup_cons]
      refine ⟨fun hmem => ?_, ih h.2⟩
      rcases dictSet_keys_mem rest k v k3 hmem with h3 | h3
      · exact h.1 h3
      · exact h2 h3

theorem countKey_eq_zero_of_not_mem (m : FuncDict) (k : Key)
    (h : k ∉ m.map Prod.fst) : countKey m k = 0 := by
  induction m with
  | nil => rfl
  | cons e rest ih =>
    simp only [List.map_cons, List.mem_cons] at h
    push_neg at h
    simp only [countKey, List.filter_cons]
    rw [if_neg (by simpa using Ne.symm h.1)]
    exact ih h.2

theorem countKey_le_one (m : FuncDict) (h : (m.map Prod.fst).Nodup) (k : Key) :
    countKey m k ≤ 1 := by
  induction m with
  | nil => simp [countKey]
  | cons e rest ih =>
    simp only [List.map_cons, List.nodup_cons] at h
    simp only [countKey, List.filter_cons]
    split
    · rename_i heq
      simp only [beq_iff_eq] at heq
      have : countKey rest k = 0 := countKey_eq_zero_of_not_mem rest k (heq ▸ h.1)
      simp only [countKey] at this
      simp [this]
    · exact ih h.2

theorem countKey_pos_of_lookup (m : FuncDict) (k : Key) (v : List Char × Nat)
    (h : List.lookup k m = some v) : 1 ≤ countKey m k := by
  induction m with
  | nil => simp at h
  | cons e rest ih =>
    obtain ⟨k2, v2⟩ := e
    simp only [countKey, List.filter_cons]
    by_cases h2 : k2 = k
    · simp [h2]
    · rw [lookup_cons_ne (Ne.symm h2)] at h
      rw [if_neg (by simpa using h2)]
      exact ih h

theorem getLast?_cons_of_ne_nil {α : Type} (a : α) {l : List α} (h : l ≠ []) :
    (a :: l).getLast? = l.getLast? := by
  cases l with
  | nil => exact absurd rfl h
  | cons b l2 => simp [List.getLast?_cons_cons]

theorem getLast?_ne_none {α : Type} : ∀ (l : List α), l ≠ [] → l.getLast? ≠ none
  | [a], _ => by simp
  | a :: b :: l, _ => by
    rw [List.getLast?_cons_cons]
    exact getLast?_ne_none (b :: l) (by simp)

theorem extract_fold_lookup (digest : List Char → List Char) (k : Key) :
    ∀ (nodes : List CapturedFn) (acc : FuncDict),
      List.lookup k (List.foldl (extractStep digest) acc nodes)
        = match (keyedNodes k nodes).getLast? with
          | some n => some (digest n.funcText, n.startRow + 1)
          | none => List.lookup k acc := by
  intro nodes
  induction nodes with
  | nil => simp [keyedNodes]
  | cons n rest ih =>
    intro acc
    simp only [List.foldl_cons]
    by_cases hb : n.hasCompoundBody = true
    · cases hd : n.declText with
      | none =>
        have hrel : nodeKeyed k n = false := by simp [nodeKeyed, hd]
        have hstep : extractStep digest acc n = acc := by simp [extractStep, hb, hd]
        rw [hstep, ih acc]
        simp [keyedNodes, List.filter_cons, hrel]
      | some d =>
        by_cases hk : pyStrip d = k
        · have hrel : nodeKeyed k n = true := by simp [nodeKeyed, hb, hd, hk]
          have hstep : extractStep digest acc n
              = dictSet acc k (digest n.funcText, n.startRow + 1) := by
            simp [extractStep, hb, hd, hk]
          rw [hstep, ih _]
          have hkeyed : keyedNodes k (n :: rest) = n :: keyedNodes k rest := by
            simp [keyedNodes, List.filter_cons, hrel]
          rw [hkeyed]
          cases hlast : (keyedNodes k rest).getLast? with
          | none =>
            have hnil : keyedNodes k rest = [] := by
              by_contra hne
              exact getLast?_ne_none _ hne hlast
            rw [hnil]
            simp [dictSet_lookup_self]
          | some m0 =>
            have hne : keyedNodes k rest ≠ [] := by
              intro hx
              rw [hx] at hlast
              simp at hlast
            rw [getLast?_cons_of_ne_nil n hne, hlast]
        · have hrel : nodeKeyed k n = false := by simp [nodeKeyed, hd, hk]
          have hstep : extractStep digest acc n
              = dictSet acc (pyStrip d) (digest n.funcText, n.startRow + 1) := by
            simp [extractStep, hb, hd]
          rw [hstep, ih _]
          have hkeyed : keyedNodes k (n :: rest) = keyedNodes k rest := by
            simp [keyedNodes, List.filter_cons, hrel]
          rw [hkeyed]
          cases (keyedNodes k rest).getLast? with
          | none => exact dictSet_lookup_ne acc (pyStrip d) k _ (Ne.symm hk)
          | some m0 => rfl
    · have hrel : nodeKeyed k n = false := by simp [nodeKeyed, hb]
      have hstep : extractStep digest acc n = acc := by simp [extractStep, hb]
      rw [hstep, ih acc]
      simp [keyedNodes, List.filter_cons, hrel]

theorem extract_fold_nodup (digest : List Char → List Char) :
    ∀ (nodes : List CapturedFn) (acc : FuncDict),
      (acc.map Prod.fst).Nodup →
        ((List.foldl (extractStep digest) acc nodes).map Prod.fst).Nodup := by
  intro nodes
  induction nodes with
  | nil => exact fun acc h => h
  | cons n rest ih =>
    intro acc hacc
    simp only [List.foldl_cons]
    apply ih
    unfold extractStep
    split
    · split
      · exact dictSet_keys_nodup acc _ _ hacc
      · exact hacc
    · exact hacc

/-- C9: when several captured function definitions share a byte-identical
declarator text, the extracted map holds exactly one entry for that key,
carrying the digest and 1-based start line of the last such node in capture
order; the earlier same-key nodes are silently overwritten. -/
theorem c9_duplicate_key_last_wins (digest : List Char → List Char)
    (nodes : List CapturedFn) (k : Key) (h : keyedNodes k nodes ≠ []) :
    countKey (ExtractFunctions digest nodes) k = 1 ∧
    List.lookup k (ExtractFunctions digest nodes)
      = some (digest ((keyedNodes k nodes).getLast h).funcText,
              ((keyedNodes k nodes).getLast h).startRow + 1) := by
  have hlast : (keyedNodes k nodes).getLast? = some ((keyedNodes k nodes).getLast h) :=
    List.getLast?_eq_getLast _ h
  have hlook := extract_fold_lookup digest k nodes []
  rw [hlast] at hlook
  have hlook2 : List.lookup k (ExtractFunctions digest nodes)
      = some (digest ((keyedNodes k nodes).getLast h).funcText,
              ((keyedNodes k nodes).getLast h).startRow + 1) := hlook
  refine ⟨?_, hlook2⟩
  have hnd := extract_fold_nodup digest nodes [] (by simp)
  have h1 : countKey (ExtractFunctions digest nodes) k ≤ 1 := countKey_le_one _ hnd k
  have h2 := countKey_pos_of_lookup _ k _ hlook2
  omega

/-- Witness for C9: two definitions with declarator text `foo()` (one with
leading whitespace that strips to the same key); the extracted map has one
entry for the key, holding the digest and line of the second one. -/
theorem c9_witness :
    keyedNodes ['f', 'o', 'o', '(', ')']
        [⟨true, some [' ', 'f', 'o', 'o', '(', ')'], ['A'], 10⟩,
         ⟨true, some ['b', 'a', 'r', '(', ')'], ['C'], 20⟩,
         ⟨true, some ['f', 'o', 'o', '(', ')'], ['B'], 30⟩] ≠ [] ∧
    (countKey
        (ExtractFunctions (fun l => 'h' :: l)
          [⟨true, some [' ', 'f', 'o', 'o', '(', ')'], ['A'], 10⟩,
           ⟨true, some ['b', 'a', 'r', '(', ')'], ['C'], 20⟩,
           ⟨true, some ['f', 'o', 'o', '(', ')'], ['B'], 30⟩])
        ['f', 'o', 'o', '(', ')'] = 1 ∧
      List.lookup ['f', 'o', 'o', '(', ')']
          (ExtractFunctions (fun l => 'h' :: l)
            [⟨true, some [' ', 'f', 'o', 'o', '(', ')'], ['A'], 10⟩,
             ⟨true, some ['b', 'a', 'r', '(', ')'], ['C'], 20⟩,
             ⟨true, some ['f', 'o', 'o', '(', ')'], ['B'], 30⟩])
        = some (['h', 'B'], 31)) :=
  ⟨by decide,
   c9_duplicate_key_last_wins (fun l => 'h' :: l)
     [⟨true, some [' ', 'f', 'o', 'o', '(', ')'], ['A'], 10⟩,
      ⟨true, some ['b', 'a', 'r', '(', ')'], ['C'], 20⟩,
      ⟨true, some ['f', 'o', 'o', '(', ')'], ['B'], 30⟩]
     ['f', 'o', 'o', '(', ')'] (by decide)⟩

/-! ### ChangeSet differ (ChangeProcessor.ProcessChanges, get_git_changes.py
lines 326-329, and collect_files_to_process, auto_comment_cpp_code.py lines
226-228) -/

/-- `set(m)`: the key set of a function map. -/
def dictKeys (m : FuncDict) : Finset Key := (m.map Prod.fst).toFinset

/-- `m[k][0]`: the stored content hash for key `k`. -/
def dictHash (m : FuncDict) (k : Key) : Option (List Char) :=
  (List.lookup k m).map Prod.fst

/-- `added_keys = set(new_functions) - set(old_functions)`. -/
def addedKeys (oldF newF : FuncDict) : Finset Key := dictKeys newF \ dictKeys oldF

/-- `deleted_keys = set(old_functions) - set(new_functions)`. -/
def deletedKeys (oldF newF : FuncDict) : Finset Key := dictKeys oldF \ dictKeys newF

/-- Keys in both maps whose hashes differ. -/
def modifiedKeys (oldF newF : FuncDict) : Finset Key :=
  (dictKeys oldF ∩ dictKeys newF).filter fun k => dictHash oldF k ≠ dictHash newF k

/-- The complement class of the spec data model (ChangeClassification):
keys present in both maps with equal hashes.  The scripts do not materialise
this set; it is the stated fourth class of the partition. -/
def unchangedKeys (oldF newF : FuncDict) : Finset Key :=
  (dictKeys oldF ∩ dictKeys newF).filter fun k => dictHash oldF k = dictHash newF k

/-- C1: the differ partition law.  For every pair of old and new function
maps, added, deleted and modified are pairwise disjoint, and together with
unchanged they cover exactly the union of the old and new key sets. -/
theorem c1_differ_partition (oldF newF : FuncDict) :
    addedKeys oldF newF ∩ deletedKeys oldF newF = ∅ ∧
    addedKeys oldF newF ∩ modifiedKeys oldF newF = ∅ ∧
    deletedKeys oldF newF ∩ modifiedKeys oldF newF = ∅ ∧
    addedKeys oldF newF ∪ deletedKeys oldF newF ∪ modifiedKeys oldF newF
        ∪ unchangedKeys oldF newF
      = dictKeys oldF ∪ dictKeys newF := by
  refine ⟨?_, ?_, ?_, ?_⟩ <;>
    · ext k
      simp only [addedKeys, deletedKeys, modifiedKeys, unchangedKeys, Finset.mem_inter,
        Finset.mem_union, Finset.mem_sdiff, Finset.mem_filter, Finset.not_mem_empty,
        iff_false, not_and, and_imp]
      tauto

/-! ### AnnotationSplicer (process_file, auto_comment_cpp_code.py line 331;
FileProcessor.ProcessFile, generate_docs_ollama.py line 469)

The file is a mutable ordered sequence of lines; the Python statement
`lines[start_row : end_row + 1] = replacement_lines` is the splice. -/

/-- `lines[a : b + 1] = repl` on a line buffer. -/
def spliceLines {α : Type} (buf : List α) (a b : Nat) (repl : List α) : List α :=
  buf.take a ++ repl ++ buf.drop (b + 1)

/-- C6: splice locality.  An edit anchored at rows `[a, b]` of the line
buffer changes only those rows: the first `a` lines are unchanged, and the
lines after the replacement block are exactly the pre-edit lines after row
`b`, in order. -/
theorem c6_splice_locality {α : Type} (buf : List α) (a b : Nat) (repl : List α)
    (hab : a ≤ b) (hb : b < buf.length) :
    (spliceLines buf a b repl).take a = buf.take a ∧
    (spliceLines buf a b repl).drop (a + repl.length) = buf.drop (b + 1) := by
  have ha : (buf.take a).length = a := by
    rw [List.length_take]
    omega
  constructor
  · rw [spliceLines, List.append_assoc, List.take_append_of_le_length (by omega)]
    simp
  · rw [spliceLines, List.drop_append_eq_append_drop]
    have hlen2 : (buf.take a ++ repl).length = a + repl.length := by simp [ha]
    have h1 : (buf.take a ++ repl).drop (a + repl.length) = [] :=
      List.drop_eq_nil_of_le (by rw [hlen2])
    rw [h1, hlen2, List.nil_append]
    simp

/-- Witness for C6: replacing rows 1..2 of a five-line buffer with a
three-line block leaves line 0 and lines 3..4 intact. -/
theorem c6_witness :
    (1 ≤ 2 ∧ 2 < ([10, 11, 12, 13, 14] : List Nat).length) ∧
    ((spliceLines [10, 11, 12, 13, 14] 1 2 [91, 92, 93]).take 1 = ([10, 11, 12, 13, 14] : List Nat).take 1 ∧
     (spliceLines [10, 11, 12, 13, 14] 1 2 [91, 92, 93]).drop (1 + ([91, 92, 93] : List Nat).length)
       = ([10, 11, 12, 13, 14] : List Nat).drop (2 + 1)) :=
  ⟨⟨by decide, by decide⟩, c6_splice_locality [10, 11, 12, 13, 14] 1 2 [91, 92, 93] (by decide) (by decide)⟩

/-! ### Descending-order multi-edit application

`process_file` sorts the changed function nodes by start row in descending
order and splices each replacement block in turn
(`changed_nodes.sort(key=..., reverse=True)`), so the row indices of the
pending (smaller-row) edits are never invalidated.  Edits are given below
as a list in ascending row order together with their replacement blocks;
applying them "sorted descending" is folding from the back of that list.
The oracle applies them front to back (ascending) and recomputes the
shifted row offsets of all pending edits after each splice. -/

structure Edit (α : Type) where
  s : Nat
  e : Nat
  repl : List α
  deriving DecidableEq

/-- Apply the edits in descending start-row order: fold over the reversed
ascending list, splicing each replacement block at its original rows. -/
def applyDesc {α : Type} (edits : List (Edit α)) (buf : List α) : List α :=
  (edits.reverse).foldl (fun b ed => spliceLines b ed.s ed.e ed.repl) buf

/-- Row shift caused by replacing rows `[s, e]` with `rlen` lines: a later
row `x > e` moves to `x + rlen - (e + 1 - s)`. -/
def shiftRow (s e rlen x : Nat) : Nat := x + rlen + s - (e + 1)

def shiftEdit {α : Type} (s e rlen : Nat) (ed : Edit α) : Edit α :=
  ⟨shiftRow s e rlen ed.s, shiftRow s e rlen ed.e, ed.repl⟩

/-- The naive oracle: apply the edits in ascending order and, after each
splice, recompute the row offsets of every pending edit. -/
def applyAsc {α : Type} : List (Edit α) → List α → List α
  | [], buf => buf
  | ed :: rest, buf =>
    applyAsc (rest.map (shiftEdit ed.s ed.e ed.repl.length))
      (spliceLines buf ed.s ed.e ed.repl)
termination_by edits => edits.length
decreasing_by simp

/-- The edits are in strictly ascending, non-overlapping row ranges, all at
or above `lo` and strictly below row `n`. -/
def chainedBelow {α : Type} : Nat → Nat → List (Edit α) → Bool
  | _, _, [] => true
  | lo, n, ed :: rest =>
    decide (lo ≤ ed.s) && decide (ed.s ≤ ed.e) && decide (ed.e < n)
      && chainedBelow (ed.e + 1) n rest

theorem applyDesc_nil {α : Type} (buf : List α) : applyDesc [] buf = buf := rfl

theorem applyDesc_cons {α : Type} (ed : Edit α) (rest : List (Edit α)) (buf : List α) :
    applyDesc (ed :: rest) buf = spliceLines (applyDesc rest buf) ed.s ed.e ed.repl := by
  simp [applyDesc, List.foldl_append]

theorem applyAsc_cons {α : Type} (ed : Edit α) (rest : List (Edit α)) (buf : List α) :
    applyAsc (ed :: rest) buf
      = applyAsc (rest.map (shiftEdit ed.s ed.e ed.repl.length))
          (spliceLines buf ed.s ed.e ed.repl) := by
  rw [applyAsc]

theorem chainedBelow_cons {α : Type} (lo n : Nat) (ed : Edit α) (rest : List (Edit α)) :
    chainedBelow lo n (ed :: rest) = true
      ↔ lo ≤ ed.s ∧ ed.s ≤ ed.e ∧ ed.e < n ∧ chainedBelow (ed.e + 1) n rest = true := by
  simp [chainedBelow, Bool.and_eq_true, and_assoc]

theorem chainedBelow_mono {α : Type} (lo lo2 n : Nat) (l : List (Edit α))
    (h : chainedBelow lo n l = true) (h2 : lo2 ≤ lo) : chainedBelow lo2 n l = true := by
  cases l with
  | nil => rfl
  | cons ed rest =>
    rw [chainedBelow_cons] at h ⊢
    exact ⟨by omega, h.2⟩

theorem spliceLines_length {α : Type} (buf : List α) (a b : Nat) (repl : List α)
    (ha : a ≤ buf.length) :
    (spliceLines buf a b repl).length = a + repl.length + (buf.length - (b + 1)) := by
  simp [spliceLines]
  omega

theorem applyDesc_length_ge {α : Type} :
    ∀ (edits : List (Edit α)) (buf : List α) (lo : Nat),
      chainedBelow lo buf.length edits = true → lo ≤ buf.length →
        lo ≤ (applyDesc edits buf).length := by
  intro edits
  induction edits with
  | nil => intro buf lo _ h2; simpa [applyDesc_nil] using h2
  | cons ed rest ih =>
    intro buf lo hcb hlo
    rw [chainedBelow_cons] at hcb
    obtain ⟨h1, h2, h3, h4⟩ := hcb
    have hb := ih buf (ed.e + 1) h4 (by omega)
    rw [applyDesc_cons, spliceLines_length _ _ _ _ (by omega)]
    omega

/-- Two splices at disjoint ranges commute: applying the lower edit after
the higher one equals applying the lower edit first and the higher one at
its shifted rows. -/
theorem splice_swap {α : Type} (buf : List α) (s e s2 e2 : Nat) (r r2 : List α)
    (h1 : s ≤ e) (h2 : e < s2) (h3 : s2 ≤ e2) (h4 : e2 < buf.length) :
    spliceLines (spliceLines buf s2 e2 r2) s e r
      = spliceLines (spliceLines buf s e r)
          (shiftRow s e r.length s2) (shiftRow s e r.length e2) r2 := by
  have hT2 : (buf.take s2).length = s2 := by rw [List.length_take]; omega
  have hT1 : (buf.take s).length = s := by rw [List.length_take]; omega
  have hpre : (buf.take s ++ r).length = s + r.length := by simp [hT1]
  have htake1 : (spliceLines buf s2 e2 r2).take s = buf.take s := by
    rw [spliceLines, List.take_append_of_le_length (by simp [hT2]; omega),
      List.take_append_of_le_length (by omega), List.take_take]
    congr 1
    omega
  have hdrop1 : (spliceLines buf s2 e2 r2).drop (e + 1)
      = ((buf.take s2).drop (e + 1) ++ r2) ++ buf.drop (e2 + 1) := by
    rw [spliceLines, List.drop_append_eq_append_drop, List.drop_append_eq_append_drop]
    have hz1 : e + 1 - (buf.take s2).length = 0 := by rw [hT2]; omega
    have hz2 : e + 1 - (buf.take s2 ++ r2).length = 0 := by simp [hT2]; omega
    rw [hz1, hz2, List.drop_zero, List.drop_zero]
  have htake2 : (spliceLines buf s e r).take (shiftRow s e r.length s2)
      = (buf.take s ++ r) ++ (buf.take s2).drop (e + 1) := by
    rw [spliceLines, List.take_append_eq_append_take,
      List.take_of_length_le (by rw [hpre]; simp [shiftRow]; omega)]
    congr 1
    rw [hpre]
    have harg : shiftRow s e r.length s2 - (s + r.length) = s2 - (e + 1) := by
      simp [shiftRow]
      omega
    rw [harg, List.take_drop]
    have harg2 : e + 1 + (s2 - (e + 1)) = s2 := by omega
    rw [harg2]
  have hdrop2 : (spliceLines buf s e r).drop (shiftRow s e r.length e2 + 1)
      = buf.drop (e2 + 1) := by
    rw [spliceLines, List.drop_append_eq_append_drop]
    have hnil : (buf.take s ++ r).drop (shiftRow s e r.length e2 + 1) = [] := by
      apply List.drop_eq_nil_of_le
      rw [hpre]
      simp [shiftRow]
      omega
    rw [hnil, List.nil_append, hpre, List.drop_drop]
    have harg : e + 1 + (shiftRow s e r.length e2 + 1 - (s + r.length)) = e2 + 1 := by
      simp [shiftRow]
      omega
    rw [harg]
  have eL : spliceLines (spliceLines buf s2 e2 r2) s e r
      = (spliceLines buf s2 e2 r2).take s ++ r ++ (spliceLines buf s2 e2 r2).drop (e + 1) := rfl
  have eR : spliceLines (spliceLines buf s e r)
        (shiftRow s e r.length s2) (shiftRow s e r.length e2) r2
      = (spliceLines buf s e r).take (shiftRow s e r.length s2) ++ r2
          ++ (spliceLines buf s e r).drop (shiftRow s e r.length e2 + 1) := rfl
  rw [eL, eR, htake1, hdrop1, htake2, hdrop2]
  simp [List.append_assoc]

/-- Applying a low edit after all (higher, disjoint) pending edits equals
applying it first and then the pending edits at shifted rows. -/
theorem applyDesc_splice_comm {α : Type} :
    ∀ (rest : List (Edit α)) (buf : List α) (s e : Nat) (r : List α),
      s ≤ e → chainedBelow (e + 1) buf.length rest = true →
        spliceLines (applyDesc rest buf) s e r
          = applyDesc (rest.map (shiftEdit s e r.length)) (spliceLines buf s e r) := by
  intro rest
  induction rest with
  | nil => intro buf s e r _ _; simp [applyDesc_nil]
  | cons ed2 r2 ih =>
    intro buf s e r hse hcb
    rw [chainedBelow_cons] at hcb
    obtain ⟨h1, h2, h3, h4⟩ := hcb
    have hblen : ed2.e + 1 ≤ (applyDesc r2 buf).length :=
      applyDesc_length_ge r2 buf (ed2.e + 1) h4 (by omega)
    rw [applyDesc_cons]
    rw [splice_swap (applyDesc r2 buf) s e ed2.s ed2.e r ed2.repl hse (by omega) h2
      (by omega)]
    rw [ih buf s e r hse (chainedBelow_mono (ed2.e + 1) (e + 1) _ r2 h4 (by omega))]
    rw [List.map_cons, applyDesc_cons]
    rfl

theorem shiftRow_add_one (s e rlen x : Nat) (h : e + 1 ≤ x) :
    shiftRow s e rlen (x + 1) = shiftRow s e rlen x + 1 := by
  simp [shiftRow]
  omega

theorem chainedBelow_shift {α : Type} :
    ∀ (rest : List (Edit α)) (lo n s e rlen : Nat),
      e + 1 ≤ lo → chainedBelow lo n rest = true →
        chainedBelow (shiftRow s e rlen lo) (shiftRow s e rlen n)
          (rest.map (shiftEdit s e rlen)) = true := by
  intro rest
  induction rest with
  | nil => intro lo n s e rlen _ _; rfl
  | cons ed r2 ih =>
    intro lo n s e rlen hlo hcb
    rw [chainedBelow_cons] at hcb
    obtain ⟨h1, h2, h3, h4⟩ := hcb
    rw [List.map_cons, chainedBelow_cons]
    refine ⟨by simp [shiftEdit, shiftRow]; omega, by simp [shiftEdit, shiftRow]; omega,
      by simp [shiftEdit, shiftRow]; omega, ?_⟩
    have := ih (ed.e + 1) n s e rlen (by omega) h4
    rw [shiftRow_add_one s e rlen ed.e (by omega)] at this
    simpa [shiftEdit] using this

/-- C7: descending-order correctness.  For every buffer and every ascending
list of edits at non-overlapping in-range row ranges, applying them in
descending start-row order (no offset adjustment) is byte-identical to the
naive ascending oracle that recomputes the shifted row offsets of all
pending edits after each splice. -/
theorem c7_descending_order_correct {α : Type} :
    ∀ (edits : List (Edit α)) (buf : List α),
      chainedBelow 0 buf.length edits = true →
        applyDesc edits buf = applyAsc edits buf := by
  intro edits buf
  induction edits, buf using applyAsc.induct with
  | case1 buf => intro _; rw [applyDesc_nil, applyAsc]
  | case2 ed rest buf ih =>
    intro hcb
    rw [chainedBelow_cons] at hcb
    obtain ⟨h1, h2, h3, h4⟩ := hcb
    rw [applyAsc_cons, applyDesc_cons, applyDesc_splice_comm rest buf ed.s ed.e ed.repl h2 h4]
    apply ih
    have hlen : (spliceLines buf ed.s ed.e ed.repl).length
        = shiftRow ed.s ed.e ed.repl.length buf.length := by
      rw [spliceLines_length _ _ _ _ (by omega)]
      simp [shiftRow]
      omega
    rw [hlen]
    exact chainedBelow_mono _ 0 _ _
      (chainedBelow_shift rest (ed.e + 1) buf.length ed.s ed.e ed.repl.length (by omega) h4)
      (by omega)

/-- Witness for C7, following the spec scenario: three functions in a
twelve-line buffer, each replaced by a block two lines longer; descending
application and the recomputing oracle agree. -/
theorem c7_witness :
    chainedBelow 0 ([0, 1, 2, 3, 4, 5, 6, 7, 8, 9, 10, 11] : List Nat).length
        [⟨1, 2, [21, 22, 23, 24]⟩, ⟨4, 5, [51, 52, 53, 54]⟩, ⟨8, 9, [91, 92, 93, 94]⟩] = true ∧
    applyDesc [⟨1, 2, [21, 22, 23, 24]⟩, ⟨4, 5, [51, 52, 53, 54]⟩, ⟨8, 9, [91, 92, 93, 94]⟩]
        [0, 1, 2, 3, 4, 5, 6, 7, 8, 9, 10, 11]
      = applyAsc [⟨1, 2, [21, 22, 23, 24]⟩, ⟨4, 5, [51, 52, 53, 54]⟩, ⟨8, 9, [91, 92, 93, 94]⟩]
          [0, 1, 2, 3, 4, 5, 6, 7, 8, 9, 10, 11] :=
  ⟨by decide,
   c7_descending_order_correct
     [⟨1, 2, [21, 22, 23, 24]⟩, ⟨4, 5, [51, 52, 53, 54]⟩, ⟨8, 9, [91, 92, 93, 94]⟩]
     [0, 1, 2, 3, 4, 5, 6, 7, 8, 9, 10, 11] (by decide)⟩

/-! ### Inline-annotation response handling (process_file,
auto_comment_cpp_code.py lines 309-327; FileProcessor.ProcessFile,
generate_docs_ollama.py lines 437-460)

The generator response is cleaned of markdown fences and passed to the JSON
parser inside `try ... except json.JSONDecodeError: comments = []`; the
parsed value is then sorted by its `line` fields in descending order and
each comment is appended to the addressed function line.  The JSON parser
is an opaque parameter returning `none` exactly on a parse failure
(`json.JSONDecodeError`); parsed numbers are modelled as the integers the
generator is asked to produce.  Operations that raise on a value of the
wrong shape (`.sort` on a non-list, `x[...]` subscription, `int - 1`,
string concatenation) are modelled as `Except.error`. -/

inductive Json where
  | num (n : Int)
  | str (s : List Char)
  | arr (xs : List Json)
  | obj (fields : List (List Char × Json))
  | boolV (b : Bool)
  | nullV

/-- One entry as consumed by the application loop: the integer `line` field
and the raw `comment` field (checked to be a string only when used). -/
structure RawNote where
  line : Int
  comment : Json

/-- `x['line']` as evaluated by the sort key and the loop: requires a JSON
object with an integer `line`; anything else raises.  The `comment` field
is fetched for later use (a missing field raises at use time, modelled by
the `null` placeholder which fails the string check). -/
def rawOfJson : Json → Except Unit RawNote
  | Json.obj fields =>
    match List.lookup ['l', 'i', 'n', 'e'] fields with
    | some (Json.num n) =>
      Except.ok ⟨n, (List.lookup ['c', 'o', 'm', 'm', 'e', 'n', 't'] fields).getD Json.nullV⟩
    | _ => Except.error ()
  | _ => Except.error ()

/-- `comments.sort(...)` requires a list; each element must yield an
integer sort key. -/
def decodeNotes : Json → Except Unit (List RawNote)
  | Json.arr xs => xs.mapM rawOfJson
  | _ => Except.error ()

/-- Stable descending insertion by `line` (Python `list.sort` with
`reverse=True` is stable). -/
def insertDescBy (c : RawNote) : List RawNote → List RawNote
  | [] => [c]
  | d :: ds => if c.line ≤ d.line then d :: insertDescBy c ds else c :: d :: ds

def sortRawDesc (cs : List RawNote) : List RawNote :=
  cs.foldl (fun acc c => insertDescBy c acc) []

/-- `line.rstrip(chr(13) + chr(10))`. -/
def pyRstripNl (l : List Char) : List Char :=
  (l.reverse.dropWhile (fun c => c == '\r' || c == '\n')).reverse

/-- Apply one inline comment: out-of-range lines are silently skipped; in
range, the comment must be a string and is appended after a tab marker. -/
def applyRaw (ls : List (List Char)) (c : RawNote) : Except Unit (List (List Char)) :=
  let idx := c.line - 1
  if 0 ≤ idx ∧ idx < (ls.length : Int) then
    match c.comment with
    | Json.str sTxt =>
      Except.ok (ls.set idx.toNat
        (pyRstripNl (ls.getD idx.toNat []) ++ '\t' :: ' ' :: '/' :: '/' :: ' ' :: (sTxt ++ ['\n'])))
    | _ => Except.error ()
  else Except.ok ls

def applyNotes (cs : List RawNote) (ls : List (List Char)) : Except Unit (List (List Char)) :=
  (sortRawDesc cs).foldlM applyRaw ls

/-- `removeprefix`. -/
def dropLead (p l : List Char) : List Char :=
  if l.take p.length = p then l.drop p.length else l

/-- `removesuffix`. -/
def dropTrail (p l : List Char) : List Char :=
  (dropLead p.reverse l.reverse).reverse

/-- `json_response.strip().removeprefix('```json').removesuffix('```').strip()`. -/
def cleanFences (resp : List Char) : List Char :=
  pyStrip (dropTrail "```".toList (dropLead "```json".toList (pyStrip resp)))

/-- The whole response-to-buffer pipeline for one function: a parse failure
yields the empty comment list; a parsed value is decoded, sorted and
applied. -/
def processResponse (decode : List Char → Option Json) (resp : List Char)
    (ls : List (List Char)) : Except Unit (List (List Char)) :=
  match decode (cleanFences resp) with
  | none => applyNotes [] ls
  | some j =>
    match decodeNotes j with
    | Except.error err => Except.error err
    | Except.ok raw => applyNotes raw ls

/-- C8 counterexample: a response that parses as the well-formed JSON
string value `hi` — not of the expected array-of-(line, comment) shape —
is NOT treated as an empty annotation list: `comments.sort(...)` raises on
it (modelled as an error), aborting the processing instead of leaving the
function text unchanged.  Only `json.JSONDecodeError` is caught. -/
theorem c8_counterexample :
    processResponse (fun _ => some (Json.str ['h', 'i'])) ['h', 'i'] [['a']]
      = Except.error () := rfl

/-- C8 (amended): for every response on which the JSON parser fails —
a response that is not well-formed JSON — the handler treats it as an
empty annotation list and does not abort: the function lines are returned
unchanged and processing continues. -/
theorem c8_parse_failure_is_empty (decode : List Char → Option Json) (resp : List Char)
    (ls : List (List Char)) (h : decode (cleanFences resp) = none) :
    processResponse decode resp ls = Except.ok ls := by
  unfold processResponse
  rw [h]
  rfl

/-- Witness for the amended C8. -/
theorem c8_witness :
    ((fun _ : List Char => (none : Option Json)) (cleanFences ['x']) = none) ∧
    processResponse (fun _ => none) ['x'] [['a']] = Except.ok [['a']] :=
  ⟨rfl, c8_parse_failure_is_empty (fun _ => none) ['x'] [['a']] rfl⟩

/-! ### Idempotence of comment stripping on already-stripped text

An already-stripped text, per the spec, contains only block and full-line
comments (no inline trailing comment remains) and has its trailing
whitespace trimmed.  `noInline` re-runs the scanner and checks that the
inline-drop branch is never taken; the scanner deletes characters in no
other branch, so such a text is a fixed point of the stripping loop. -/

/-- The scanner branch trace: `true` iff scanning never reaches a `//` in
normal state whose line prefix is not all whitespace (the only branch of
`RemoveComments` that deletes characters). -/
def noInline (cs : List Char) (inStr : Bool) (q : Char) (lp : List Char) : Bool :=
  match cs with
  | [] => true
  | c :: rest =>
    if inStr then
      if c = '\\' then
        match rest with
        | [] => true
        | d :: rest2 => noInline rest2 true q (advLine lp [c, d])
      else if c = q then
        noInline rest false q (updLine lp c)
      else
        noInline rest true q (updLine lp c)
    else if c = '"' ∨ c = '\'' then
      noInline rest true c (updLine lp c)
    else if c = '/' then
      match rest with
      | [] => true
      | d :: rest2 =>
        if d = '/' then
          if lp.all isPySpace then
            noInline ((rest2.dropWhile (fun x => x != '\n')).tail) false q []
          else false
        else if d = '*' then
          let p := takeBlock rest2
          noInline p.2 false q (advLine lp ('/' :: '*' :: p.1))
        else
          noInline (d :: rest2) false q (updLine lp c)
    else
      noInline rest false q (updLine lp c)
termination_by cs.length
decreasing_by
  all_goals simp
  all_goals first
    | omega
    | (have h1 := dropWhile_length_le (fun x => x != '\n') rest2
       simp [List.length_tail]
       omega)
    | (have h1 := takeBlock_snd_length_le rest2
       omega)



/-- On a trace without the inline-drop branch, the scanning loop copies its
input verbatim. -/
theorem rmLoop_fix (cs : List Char) (b : Bool) (q : Char) (lp : List Char)
    (h : noInline cs b q lp = true) : rmLoop cs b q lp = cs := by
  induction cs, b, q, lp using noInline.induct with
  | case1 b q lp => rw [rmLoop_nil]
  | case2 q lp => rw [rmLoop_esc_eof]
  | case3 q lp d rest2 ih =>
    rw [noInline] at h
    rw [rmLoop_esc, ih h]
  | case4 lp d rest2 hne ih =>
    rw [noInline.eq_def] at h
    simp only [if_pos rfl, if_neg hne] at h
    rw [rmLoop_str_close d lp rest2 hne, ih h]
  | case5 q lp d rest2 h1 h2 ih =>
    rw [noInline.eq_def] at h
    simp only [if_pos rfl, if_neg h1, if_neg h2] at h
    rw [rmLoop_str_char d q lp rest2 h1 h2, ih h]
  | case6 b q lp d rest2 hb hq ih =>
    simp only [Bool.not_eq_true] at hb
    subst hb
    rw [noInline.eq_def] at h
    simp only [Bool.false_eq_true, if_false, if_pos hq] at h
    rw [rmLoop_quote d q lp rest2 hq, ih h]
  | case7 b q lp hb hq =>
    simp only [Bool.not_eq_true] at hb
    subst hb
    rw [rmLoop_slash_eof]
  | case8 b q lp hb rest2 hws hq ih =>
    simp only [Bool.not_eq_true] at hb
    subst hb
    rw [noInline.eq_def] at h
    have hq2 : ¬(('/' : Char) = '"' ∨ ('/' : Char) = '\'') := by decide
    simp only [Bool.false_eq_true, if_false, if_neg hq2, if_pos rfl, hws, if_true] at h
    cases hdw : rest2.dropWhile (fun x => x != '\n') with
    | nil =>
      rw [rmLoop_keep_eof q lp rest2 hws hdw]
      have hsplit := List.takeWhile_append_dropWhile (fun x => x != '\n') rest2
      rw [hdw, List.append_nil] at hsplit
      rw [hsplit]
    | cons nl rest3 =>
      rw [hdw] at h ih
      rw [rmLoop_keep q nl lp rest2 rest3 hws hdw]
      simp only [List.tail_cons] at h ih
      rw [ih h]
      have hsplit := List.takeWhile_append_dropWhile (fun x => x != '\n') rest2
      rw [hdw] at hsplit
      rw [hsplit]
  | case9 b q lp hb rest2 hws hq =>
    simp only [Bool.not_eq_true] at hb
    subst hb
    rw [noInline.eq_def] at h
    have hq2 : ¬(('/' : Char) = '"' ∨ ('/' : Char) = '\'') := by decide
    simp only [Bool.false_eq_true, if_false, if_neg hq2, if_pos rfl, hws] at h
    simp at h
  | case10 b q lp hb rest2 p hq hstar ih =>
    simp only [Bool.not_eq_true] at hb
    subst hb
    have hp : p = takeBlock rest2 := rfl
    rw [hp] at ih
    rw [noInline.eq_def] at h
    have hq2 : ¬(('/' : Char) = '"' ∨ ('/' : Char) = '\'') := by decide
    simp only [Bool.false_eq_true, if_false, if_neg hq2, if_pos rfl, if_neg hstar] at h
    rw [rmLoop_block q lp rest2, ih h]
    rw [show (takeBlock rest2).1 ++ (takeBlock rest2).2 = rest2 from takeBlock_append rest2]
  | case11 b q lp hb d rest2 h1 h2 hq ih =>
    simp only [Bool.not_eq_true] at hb
    subst hb
    rw [noInline.eq_def] at h
    have hq2 : ¬(('/' : Char) = '"' ∨ ('/' : Char) = '\'') := by decide
    simp only [Bool.false_eq_true, if_false, if_neg hq2, if_pos rfl, if_neg h1, if_neg h2] at h
    rw [rmLoop_slash q d lp rest2 h1 h2, ih h]
  | case12 b q lp d rest2 hb h1 h2 ih =>
    simp only [Bool.not_eq_true] at hb
    subst hb
    rw [noInline.eq_def] at h
    simp only [Bool.false_eq_true, if_false, if_neg h1, if_neg h2] at h
    rw [rmLoop_char d q lp rest2 h1 h2, ih h]

theorem joinNl_singleton (l : List Char) : joinNl [l] = l := rfl

theorem joinNl_cons2 (l l2 : List Char) (ls : List (List Char)) :
    joinNl (l :: l2 :: ls) = l ++ '\n' :: joinNl (l2 :: ls) := rfl

theorem joinNl_splitNl (l : List Char) : joinNl (splitNl l) = l := by
  induction l with
  | nil => rfl
  | cons c cs ih =>
    by_cases h : c = '\n'
    · subst h
      have hsp : splitNl ('\n' :: cs) = [] :: splitNl cs := by
        simp [splitNl]
      rw [hsp]
      cases h2 : splitNl cs with
      | nil => exact absurd h2 (splitNl_ne_nil cs)
      | cons p ps =>
        rw [joinNl_cons2, List.nil_append, ← h2, ih]
    · cases h2 : splitNl cs with
      | nil => exact absurd h2 (splitNl_ne_nil cs)
      | cons p ps =>
        have hsp : splitNl (c :: cs) = (c :: p) :: ps := by
          rw [splitNl.eq_def]
          simp only [if_neg h]
          rw [h2]
        rw [hsp]
        rw [h2] at ih
        cases ps with
        | nil =>
          rw [joinNl_singleton]
          rw [joinNl_singleton] at ih
          rw [ih]
        | cons p2 ps2 =>
          rw [joinNl_cons2] at ih ⊢
          rw [List.cons_append, ih]

/-! A front-to-back reformulation of the right-trimming post-pass: a
character is dropped exactly when it is non-newline whitespace and
everything up to the next newline (or end of input) is whitespace too. -/

/-- The rest of the current physical line is all whitespace. -/
def lineAllWs (l : List Char) : Bool :=
  (l.takeWhile (fun x => x != '\n')).all isPySpace

/-- Remove the trailing whitespace of every line, scanning from the front. -/
def trimLines : List Char → List Char
  | [] => []
  | c :: rest =>
    if isPySpace c && (c != '\n') && lineAllWs rest then
      trimLines rest
    else
      c :: trimLines rest

theorem trimLines_cons_del {c : Char} {rest : List Char}
    (h1 : isPySpace c = true) (h2 : c ≠ '\n') (h3 : lineAllWs rest = true) :
    trimLines (c :: rest) = trimLines rest := by
  rw [trimLines]
  simp [h1, h2, h3]

theorem trimLines_cons_keep {c : Char} {rest : List Char}
    (h : ¬(isPySpace c = true ∧ c ≠ '\n' ∧ lineAllWs rest = true)) :
    trimLines (c :: rest) = c :: trimLines rest := by
  rw [trimLines]
  rcases Decidable.not_and_iff_or_not.mp h with h1 | h12
  · simp [h1]
  · rcases Decidable.not_and_iff_or_not.mp h12 with h2 | h3
    · simp only [ne_eq, Decidable.not_not] at h2
      simp [h2]
    · simp [h3]

theorem lineAllWs_cons_nl (rest : List Char) : lineAllWs ('\n' :: rest) = true := by
  simp [lineAllWs, List.takeWhile_cons]

theorem lineAllWs_cons {c : Char} (rest : List Char) (h : c ≠ '\n') :
    lineAllWs (c :: rest) = (isPySpace c && lineAllWs rest) := by
  simp [lineAllWs, List.takeWhile_cons, h]

theorem splitNl_head {cs p : List Char} {ps : List (List Char)}
    (h : splitNl cs = p :: ps) : p = cs.takeWhile (fun x => x != '\n') := by
  induction cs generalizing p ps with
  | nil =>
    rw [splitNl] at h
    injection h with e1 e2
    simp [← e1]
  | cons c rest ih =>
    by_cases hc : c = '\n'
    · subst hc
      rw [show splitNl ('\n' :: rest) = [] :: splitNl rest from by simp [splitNl]] at h
      injection h with e1 e2
      simp [← e1, List.takeWhile_cons]
    · rw [splitNl.eq_def] at h
      simp only [if_neg hc] at h
      cases h2 : splitNl rest with
      | nil => exact absurd h2 (splitNl_ne_nil rest)
      | cons p2 ps2 =>
        rw [h2] at h
        injection h with e1 e2
        rw [List.takeWhile_cons, if_pos (by simpa using hc), ← ih h2, ← e1]

theorem rstrip_all_ws {l : List Char} (h : l.all isPySpace = true) :
    rstripChars l = [] := by
  unfold rstripChars
  have h2 : l.reverse.dropWhile isPySpace = [] := by
    rw [List.dropWhile_eq_nil_iff]
    intro x hx
    exact List.all_eq_true.mp h x (List.mem_reverse.mp hx)
  rw [h2]
  rfl

theorem rstrip_cons_keep {c : Char} {p : List Char}
    (h : ¬(isPySpace c = true ∧ p.all isPySpace = true)) :
    rstripChars (c :: p) = c :: rstripChars p := by
  unfold rstripChars
  rw [List.reverse_cons, List.dropWhile_append]
  by_cases hp : p.reverse.dropWhile isPySpace = []
  · have hall : p.all isPySpace = true := by
      rw [List.all_eq_true]
      intro x hx
      exact List.dropWhile_eq_nil_iff.mp hp x (List.mem_reverse.mpr hx)
    have hc : isPySpace c = false := by
      rcases Decidable.not_and_iff_or_not.mp h with h1 | h2
      · exact Bool.not_eq_true _ ▸ (by simpa using h1)
      · exact absurd hall h2
    rw [hp]
    simp [List.dropWhile, hc]
  · rw [if_neg (by simpa [List.isEmpty_iff] using hp)]
    simp

theorem joinNl_cons_head (c : Char) (x : List Char) (ls : List (List Char)) :
    joinNl ((c :: x) :: ls) = c :: joinNl (x :: ls) := by
  cases ls with
  | nil => rfl
  | cons y ys => rfl

/-- The front-to-back trimmer agrees with split / rstrip every line / rejoin. -/
theorem trimLines_eq : ∀ v : List Char, trimLines v = joinNl ((splitNl v).map rstripChars) := by
  intro v
  induction v with
  | nil => rfl
  | cons c cs ih =>
    by_cases hnl : c = '\n'
    · subst hnl
      rw [trimLines_cons_keep (by simp), ih,
        show splitNl ('\n' :: cs) = [] :: splitNl cs from by simp [splitNl]]
      cases h2 : splitNl cs with
      | nil => exact absurd h2 (splitNl_ne_nil cs)
      | cons p ps =>
        simp only [List.map_cons]
        rw [show rstripChars [] = [] from rfl, joinNl_cons2, List.nil_append]
    · cases h2 : splitNl cs with
      | nil => exact absurd h2 (splitNl_ne_nil cs)
      | cons p ps =>
        have hsp : splitNl (c :: cs) = (c :: p) :: ps := by
          rw [splitNl.eq_def]
          simp only [if_neg hnl]
          rw [h2]
        have hp : p = cs.takeWhile (fun x => x != '\n') := splitNl_head h2
        by_cases hg : isPySpace c = true ∧ lineAllWs cs = true
        · have hpall : p.all isPySpace = true := by
            rw [hp]
            exact hg.2
          rw [trimLines_cons_del hg.1 hnl hg.2, ih, h2, hsp]
          simp only [List.map_cons]
          rw [rstrip_all_ws hpall,
            rstrip_all_ws (show (c :: p).all isPySpace = true from by simp [hg.1, hpall])]
        · have hkeep : trimLines (c :: cs) = c :: trimLines cs := by
            apply trimLines_cons_keep
            intro hcon
            exact hg ⟨hcon.1, hcon.2.2⟩
          have hnot : ¬(isPySpace c = true ∧ p.all isPySpace = true) := by
            intro hcon
            apply hg
            refine ⟨hcon.1, ?_⟩
            have h3 := hcon.2
            rw [hp] at h3
            exact h3
          rw [hkeep, ih, h2, hsp]
          simp only [List.map_cons]
          rw [rstrip_cons_keep hnot, joinNl_cons_head]

/-- A text on which the scanner finds no inline trailing comment to drop
(only block and full-line comments remain) and whose lines are free of
trailing whitespace is a fixed point of `RemoveComments`. -/
theorem stripped_text_fixed (t : List Char)
    (hscan : noInline t false ' ' [] = true)
    (htrim : (splitNl t).all (fun l => rstripChars l == l) = true) :
    RemoveComments t = t := by
  unfold RemoveComments
  rw [rmLoop_fix t false ' ' [] hscan]
  have hmap : (splitNl t).map rstripChars = (splitNl t).map id := by
    apply List.map_congr_left
    intro a ha
    have := List.all_eq_true.mp htrim a ha
    simpa using this
  rw [hmap, List.map_id, joinNl_splitNl]

/-! Toward unconditional idempotence: the output of a stripping pass has
trimmed lines, and rescanning it never reaches the inline-drop branch. -/

theorem dropWhile_idem {α : Type} (p : α → Bool) (l : List α) :
    (l.dropWhile p).dropWhile p = l.dropWhile p := by
  cases h : l.dropWhile p with
  | nil => rfl
  | cons a t =>
    have h1 := List.head?_dropWhile_not p l
    rw [h] at h1
    simp only [List.head?_cons] at h1
    rw [List.dropWhile_cons, h1]
    simp

theorem rstripChars_idem (l : List Char) : rstripChars (rstripChars l) = rstripChars l := by
  unfold rstripChars
  rw [List.reverse_reverse, dropWhile_idem]

theorem splitNl_no_nl {p : List Char} (h : ('\n' : Char) ∉ p) : splitNl p = [p] := by
  induction p with
  | nil => rfl
  | cons c cs ih =>
    simp only [List.mem_cons, not_or] at h
    rw [splitNl.eq_def]
    simp only [if_neg (Ne.symm h.1)]
    rw [ih h.2]

theorem splitNl_append_nl {p : List Char} (r : List Char) (h : ('\n' : Char) ∉ p) :
    splitNl (p ++ '\n' :: r) = p :: splitNl r := by
  induction p with
  | nil => simp [splitNl]
  | cons c cs ih =>
    simp only [List.mem_cons, not_or] at h
    rw [List.cons_append, splitNl.eq_def]
    simp only [if_neg (Ne.symm h.1)]
    rw [ih h.2]

theorem splitNl_joinNl (ps : List (List Char)) (h1 : ps ≠ [])
    (h2 : ∀ p ∈ ps, ('\n' : Char) ∉ p) : splitNl (joinNl ps) = ps := by
  induction ps with
  | nil => exact absurd rfl h1
  | cons p ps ih =>
    cases ps with
    | nil =>
      rw [joinNl_singleton]
      exact splitNl_no_nl (h2 p (by simp))
    | cons q qs =>
      rw [joinNl_cons2, splitNl_append_nl _ (h2 p (by simp))]
      rw [ih (by simp) (fun r hr => h2 r (List.mem_cons_of_mem p hr))]

/-! Unfolding equations for each branch of `noInline`. -/

theorem noInline_nil (b : Bool) (q : Char) (lp : List Char) : noInline [] b q lp = true := by
  rw [noInline]

theorem noInline_esc_eof (q : Char) (lp : List Char) : noInline ['\\'] true q lp = true := by
  rw [noInline]
  simp

theorem noInline_esc (q d : Char) (lp rest : List Char) :
    noInline ('\\' :: d :: rest) true q lp = noInline rest true q (advLine lp ['\\', d]) := by
  rw [noInline]
  simp

theorem noInline_str_close (q : Char) (lp rest : List Char) (h : q ≠ '\\') :
    noInline (q :: rest) true q lp = noInline rest false q (updLine lp q) := by
  rw [noInline.eq_def]
  simp [h]

theorem noInline_str_char (c q : Char) (lp rest : List Char) (h1 : c ≠ '\\') (h2 : c ≠ q) :
    noInline (c :: rest) true q lp = noInline rest true q (updLine lp c) := by
  rw [noInline.eq_def]
  simp [h1, h2]

theorem noInline_quote (c q : Char) (lp rest : List Char) (h : c = '"' ∨ c = '\'') :
    noInline (c :: rest) false q lp = noInline rest true c (updLine lp c) := by
  rw [noInline.eq_def]
  rcases h with h | h <;> simp [h]

theorem noInline_slash_eof (q : Char) (lp : List Char) :
    noInline ['/'] false q lp = true := by
  rw [noInline]
  simp

theorem noInline_keep (q : Char) (lp rest2 : List Char) (hws : lp.all isPySpace = true) :
    noInline ('/' :: '/' :: rest2) false q lp
      = noInline ((rest2.dropWhile (fun x => x != '\n')).tail) false q [] := by
  rw [noInline]
  have hq : ¬(('/' : Char) = '"' ∨ ('/' : Char) = '\'') := by decide
  simp [hq, hws]

theorem noInline_drop (q : Char) (lp rest2 : List Char) (hws : lp.all isPySpace = false) :
    noInline ('/' :: '/' :: rest2) false q lp = false := by
  rw [noInline]
  have hq : ¬(('/' : Char) = '"' ∨ ('/' : Char) = '\'') := by decide
  simp [hq, hws]

theorem noInline_block (q : Char) (lp rest2 : List Char) :
    noInline ('/' :: '*' :: rest2) false q lp
      = noInline (takeBlock rest2).2 false q
          (advLine lp ('/' :: '*' :: (takeBlock rest2).1)) := by
  rw [noInline]
  have hq : ¬(('/' : Char) = '"' ∨ ('/' : Char) = '\'') := by decide
  have h1 : ¬(('*' : Char) = '/') := by decide
  simp [hq, h1]

theorem noInline_slash (q d : Char) (lp rest2 : List Char) (h1 : d ≠ '/') (h2 : d ≠ '*') :
    noInline ('/' :: d :: rest2) false q lp
      = noInline (d :: rest2) false q (updLine lp '/') := by
  rw [noInline]
  have hq : ¬(('/' : Char) = '"' ∨ ('/' : Char) = '\'') := by decide
  simp [hq, h1, h2]

theorem noInline_char (c q : Char) (lp rest : List Char)
    (h1 : ¬(c = '"' ∨ c = '\'')) (h2 : c ≠ '/') :
    noInline (c :: rest) false q lp = noInline rest false q (updLine lp c) := by
  rw [noInline.eq_def]
  simp [h1, h2]

/-! The all-whitespace status of the line accumulator transports along
identical consumed chunks. -/

theorem updLine_allWs {lp1 lp2 : List Char} (c : Char)
    (h : lp1.all isPySpace = true → lp2.all isPySpace = true) :
    (updLine lp1 c).all isPySpace = true → (updLine lp2 c).all isPySpace = true := by
  by_cases hc : c = '\n'
  · simp [updLine, hc]
  · simp only [updLine, if_neg hc, List.all_append]
    intro hx
    simp only [Bool.and_eq_true] at hx ⊢
    exact ⟨h hx.1, hx.2⟩

theorem advLine_allWs {lp1 lp2 : List Char} (chunk : List Char)
    (h : lp1.all isPySpace = true → lp2.all isPySpace = true) :
    (advLine lp1 chunk).all isPySpace = true → (advLine lp2 chunk).all isPySpace = true := by
  induction chunk generalizing lp1 lp2 with
  | nil => exact h
  | cons c ch ih =>
    rw [advLine_cons, advLine_cons]
    exact ih (updLine_allWs c h)

theorem all_takeWhile {α : Type} (p : α → Bool) (l : List α) :
    ∀ a ∈ l.takeWhile p, p a = true := by
  induction l with
  | nil => simp
  | cons c cs ih =>
    rw [List.takeWhile_cons]
    split
    · rename_i hc
      intro a ha
      rcases List.mem_cons.mp ha with ha | ha
      · exact ha ▸ hc
      · exact ih a ha
    · simp

theorem dropWhile_takeWhile {α : Type} (p : α → Bool) (l : List α) :
    (l.takeWhile p).dropWhile p = [] := by
  induction l with
  | nil => rfl
  | cons c cs ih =>
    rw [List.takeWhile_cons]
    split
    · rename_i hc
      rw [List.dropWhile_cons, hc]
      simpa using ih
    · rfl

theorem takeBlock_fst_cons (x : Char) (cs : List Char) :
    ∃ t, (takeBlock (x :: cs)).1 = x :: t := by
  rw [takeBlock.eq_def]
  split
  · rename_i heq
    exact absurd heq (by simp)
  · rename_i rest heq
    injection heq with e1 e2
    subst e1
    exact ⟨['/'], rfl⟩
  · rename_i c2 cs2 hcond heq
    injection heq with e1 e2
    subst e1
    exact ⟨(takeBlock cs2).1, rfl⟩

theorem takeBlock_cons_eq (c : Char) (cs : List Char)
    (h1 : ∀ rest, c = '*' → cs = '/' :: rest → False) :
    takeBlock (c :: cs) = (c :: (takeBlock cs).1, (takeBlock cs).2) := by
  rw [takeBlock.eq_def]
  split
  · rename_i heq
    exact absurd heq (by simp)
  · rename_i rest heq
    injection heq with e1 e2
    exact (h1 rest e1 e2).elim
  · rename_i c2 cs2 hcond heq
    injection heq with e1 e2
    subst e1
    subst e2
    rfl

/-- `takeBlock` closure: the consumed part of a block either is the whole
input (unterminated block) or is closed by its terminator, in which case
scanning it again in front of any continuation consumes exactly it. -/
theorem takeBlock_spec : ∀ cs : List Char,
    ((takeBlock cs).2 = [] ∧ (takeBlock cs).1 = cs)
      ∨ (∀ z, takeBlock ((takeBlock cs).1 ++ z) = ((takeBlock cs).1, z)) := by
  intro cs
  induction cs using takeBlock.induct with
  | case1 => exact Or.inl ⟨rfl, rfl⟩
  | case2 rest =>
    refine Or.inr fun z => ?_
    rw [show takeBlock ('*' :: '/' :: rest) = (['*', '/'], rest) from rfl]
    exact rfl
  | case3 c cs h1 ih =>
    rcases ih with ⟨ha, hb⟩ | h2
    · refine Or.inl ?_
      rw [takeBlock_cons_eq c cs h1, ha, hb]
      exact ⟨rfl, rfl⟩
    · refine Or.inr fun z => ?_
      rw [takeBlock_cons_eq c cs h1, List.cons_append]
      have hcond : ∀ rest, c = '*' → (takeBlock cs).1 ++ z = '/' :: rest → False := by
        intro rest hc hz
        cases cs with
        | nil =>
          have hx := h2 ['\n']
          simp [takeBlock] at hx
        | cons x cs2 =>
          obtain ⟨t, ht⟩ := takeBlock_fst_cons x cs2
          rw [ht, List.cons_append] at hz
          injection hz with e1 e2
          exact h1 cs2 hc (e1 ▸ rfl)
      rw [takeBlock_cons_eq c ((takeBlock cs).1 ++ z) hcond, h2 z]

theorem rmLoop_cons_head (d : Char) (rest2 : List Char) (q : Char) (lp : List Char)
    (hd : d ≠ '/') : ∃ out2, rmLoop (d :: rest2) false q lp = d :: out2 := by
  by_cases hq : d = '"' ∨ d = '\''
  · exact ⟨_, rmLoop_quote d q lp rest2 hq⟩
  · exact ⟨_, rmLoop_char d q lp rest2 hq hd⟩

/-- Rescanning the raw output of the stripping loop never reaches the
inline-drop branch: the loop leaves only full-line comments, block
comments, string literals and plain code, all of which rescan cleanly.
The line accumulators of the two scans may differ, but an all-whitespace
first-pass accumulator forces an all-whitespace second-pass one. -/
theorem noInline_rmLoop (cs : List Char) (b : Bool) (q : Char) (lp1 : List Char) :
    ∀ lp2 : List Char, (lp1.all isPySpace = true → lp2.all isPySpace = true) →
      noInline (rmLoop cs b q lp1) b q lp2 = true := by
  induction cs, b, q, lp1 using rmLoop.induct with
  | case1 b q lp =>
    intro lp2 _
    rw [rmLoop_nil, noInline_nil]
  | case2 q lp =>
    intro lp2 _
    rw [rmLoop_esc_eof, noInline_esc_eof]
  | case3 q lp d rest2 ih =>
    intro lp2 hinv
    rw [rmLoop_esc, noInline_esc]
    exact ih (advLine lp2 ['\\', d]) (advLine_allWs ['\\', d] hinv)
  | case4 lp d rest2 h ih =>
    intro lp2 hinv
    rw [rmLoop_str_close d lp rest2 h, noInline_str_close d lp2 _ h]
    exact ih _ (updLine_allWs d hinv)
  | case5 q lp d rest2 h1 h2 ih =>
    intro lp2 hinv
    rw [rmLoop_str_char d q lp rest2 h1 h2, noInline_str_char d q lp2 _ h1 h2]
    exact ih _ (updLine_allWs d hinv)
  | case6 b q lp d rest2 hb h ih =>
    intro lp2 hinv
    simp only [Bool.not_eq_true] at hb
    subst hb
    rw [rmLoop_quote d q lp rest2 h, noInline_quote d q lp2 _ h]
    exact ih _ (updLine_allWs d hinv)
  | case7 b q lp hb h =>
    intro lp2 _
    simp only [Bool.not_eq_true] at hb
    subst hb
    rw [rmLoop_slash_eof, noInline_slash_eof]
  | case8 b q lp hb rest2 hws h hq =>
    intro lp2 hinv
    simp only [Bool.not_eq_true] at hb
    subst hb
    rw [rmLoop_keep_eof q lp rest2 hws h, noInline_keep q lp2 _ (hinv hws),
      dropWhile_takeWhile]
    rw [show ([] : List Char).tail = [] from rfl, noInline_nil]
  | case9 b q lp hb rest2 hws nl rest3 h hq ih =>
    intro lp2 hinv
    simp only [Bool.not_eq_true] at hb
    subst hb
    have hnl := dropWhile_nl_head h
    subst hnl
    rw [rmLoop_keep q '\n' lp rest2 rest3 hws h, noInline_keep q lp2 _ (hinv hws),
      List.dropWhile_append_of_pos (all_takeWhile _ rest2), List.dropWhile_cons]
    rw [show (('\n' : Char) != '\n') = false from by decide]
    simp only [Bool.false_eq_true, if_false, List.tail_cons]
    exact ih [] (fun hx => hx)
  | case10 b q lp hb rest2 hws h hq =>
    intro lp2 _
    simp only [Bool.not_eq_true] at hb
    subst hb
    simp only [Bool.not_eq_true] at hws
    rw [rmLoop_drop_eof q lp rest2 hws h, noInline_nil]
  | case11 b q lp hb rest2 hws nl rest3 h hq ih =>
    intro lp2 _
    simp only [Bool.not_eq_true] at hb
    subst hb
    simp only [Bool.not_eq_true] at hws
    have hnl := dropWhile_nl_head h
    subst hnl
    rw [rmLoop_drop q '\n' lp rest2 rest3 hws h,
      noInline_char '\n' q lp2 _ (by decide) (by decide)]
    rw [show updLine lp2 '\n' = [] from by simp [updLine]]
    exact ih [] (fun hx => hx)
  | case12 b q lp hb rest2 p hq hstar ih =>
    intro lp2 hinv
    simp only [Bool.not_eq_true] at hb
    subst hb
    have hp : p = takeBlock rest2 := rfl
    rw [hp] at ih
    rw [rmLoop_block q lp rest2]
    rcases takeBlock_spec rest2 with ⟨h2, h3⟩ | h2
    · rw [h2, rmLoop_nil, List.append_nil, h3, noInline_block, h2, noInline_nil]
    · rw [noInline_block,
        h2 (rmLoop (takeBlock rest2).2 false q (advLine lp ('/' :: '*' :: (takeBlock rest2).1)))]
      exact ih _ (advLine_allWs ('/' :: '*' :: (takeBlock rest2).1) hinv)
  | case13 b q lp hb d rest2 h1 h2 hq ih =>
    intro lp2 hinv
    simp only [Bool.not_eq_true] at hb
    subst hb
    rw [rmLoop_slash q d lp rest2 h1 h2]
    obtain ⟨out2, hout⟩ := rmLoop_cons_head d rest2 q (updLine lp '/') h1
    rw [hout, noInline_slash q d lp2 out2 h1 h2, ← hout]
    exact ih _ (updLine_allWs '/' hinv)
  | case14 b q lp d rest2 hb h1 h2 ih =>
    intro lp2 hinv
    simp only [Bool.not_eq_true] at hb
    subst hb
    rw [rmLoop_char d q lp rest2 h1 h2, noInline_char d q lp2 _ h1 h2]
    exact ih _ (updLine_allWs d hinv)

theorem RemoveComments_trimmed (t : List Char) :
    (splitNl (RemoveComments t)).all (fun l => rstripChars l == l) = true := by
  unfold RemoveComments
  rw [splitNl_joinNl _ (by simpa using splitNl_ne_nil (rmLoop t false ' ' []))
    (fun p hp => by
      rcases List.mem_map.mp hp with ⟨r, hr, hpr⟩
      exact hpr ▸ nl_not_mem_rstrip (mem_splitNl_no_nl _ r hr))]
  rw [List.all_eq_true]
  intro a ha
  rcases List.mem_map.mp ha with ⟨r, hr, hpr⟩
  subst hpr
  simp [rstripChars_idem]

/-! Classification of block-comment scanning: either the input holds no
terminator `*` `/` pair and `takeBlock` swallows it whole, or the consumed
part is a closed block, and line trimming preserves both situations. -/

theorem trimLines_cons_del_b {c : Char} {rest : List Char}
    (hg : (isPySpace c && (c != '\n') && lineAllWs rest) = true) :
    trimLines (c :: rest) = trimLines rest := by
  rw [trimLines, if_pos hg]

theorem trimLines_cons_keep_b {c : Char} {rest : List Char}
    (hg : (isPySpace c && (c != '\n') && lineAllWs rest) = false) :
    trimLines (c :: rest) = c :: trimLines rest := by
  rw [trimLines, if_neg (by simp [hg])]

def hasStarSlash : List Char → Bool
  | [] => false
  | '*' :: '/' :: _ => true
  | _ :: rest => hasStarSlash rest

def closedBlock : List Char → Bool
  | [] => false
  | '*' :: '/' :: rest => rest.isEmpty
  | _ :: rest => closedBlock rest

theorem hss_cons (c : Char) (cs : List Char)
    (h1 : ∀ rest, c = '*' → cs = '/' :: rest → False) :
    hasStarSlash (c :: cs) = hasStarSlash cs := by
  rw [hasStarSlash.eq_def]
  split
  · rename_i heq
    exact absurd heq (by simp)
  · rename_i rest heq
    injection heq with e1 e2
    exact (h1 rest e1 e2).elim
  · rename_i c2 cs2 hcond heq
    injection heq with e1 e2
    subst e1
    subst e2
    rfl

theorem closedBlock_cons (c : Char) (cs : List Char)
    (h1 : ∀ rest, c = '*' → cs = '/' :: rest → False) :
    closedBlock (c :: cs) = closedBlock cs := by
  rw [closedBlock.eq_def]
  split
  · rename_i heq
    exact absurd heq (by simp)
  · rename_i rest heq
    injection heq with e1 e2
    exact (h1 rest e1 e2).elim
  · rename_i c2 cs2 hcond heq
    injection heq with e1 e2
    subst e1
    subst e2
    rfl

theorem closed_ne_nil {l : List Char} (h : closedBlock l = true) : l ≠ [] := by
  intro hc
  subst hc
  exact absurd h (by simp [closedBlock])

theorem takeBlock_append_eq : ∀ cs : List Char,
    (takeBlock cs).1 ++ (takeBlock cs).2 = cs := by
  intro cs
  induction cs using takeBlock.induct with
  | case1 => rfl
  | case2 rest =>
    rw [show takeBlock ('*' :: '/' :: rest) = (['*', '/'], rest) from rfl]
    rfl
  | case3 c cs h1 ih =>
    rw [takeBlock_cons_eq c cs h1, List.cons_append, ih]

theorem takeBlock_of_no_close : ∀ cs : List Char,
    hasStarSlash cs = false → takeBlock cs = (cs, []) := by
  intro cs
  induction cs using takeBlock.induct with
  | case1 => intro _; rfl
  | case2 rest =>
    intro h
    rw [show hasStarSlash ('*' :: '/' :: rest) = true from rfl] at h
    exact absurd h (by simp)
  | case3 c cs h1 ih =>
    intro h
    rw [hss_cons c cs h1] at h
    rw [takeBlock_cons_eq c cs h1, ih h]

theorem closed_takeBlock_fst : ∀ cs : List Char,
    hasStarSlash cs = true → closedBlock (takeBlock cs).1 = true := by
  intro cs
  induction cs using takeBlock.induct with
  | case1 => intro h; exact absurd h (by simp [hasStarSlash])
  | case2 rest =>
    intro _
    rw [show takeBlock ('*' :: '/' :: rest) = (['*', '/'], rest) from rfl]
    rfl
  | case3 c cs h1 ih =>
    intro h
    rw [hss_cons c cs h1] at h
    rw [takeBlock_cons_eq c cs h1]
    have hne : cs ≠ [] := by
      intro hc
      subst hc
      exact absurd h (by simp [hasStarSlash])
    have hside : ∀ r, c = '*' → (takeBlock cs).1 = '/' :: r → False := by
      intro r hc he
      cases cs with
      | nil => exact hne rfl
      | cons x cs2 =>
        obtain ⟨t, ht⟩ := takeBlock_fst_cons x cs2
        rw [ht] at he
        injection he with e1 e2
        exact h1 cs2 hc (e1 ▸ rfl)
    rw [closedBlock_cons c _ hside]
    exact ih h

theorem closed_shape : ∀ l : List Char,
    closedBlock l = true → ∃ ys, l = ys ++ ['*', '/'] := by
  intro l
  induction l using takeBlock.induct with
  | case1 => intro h; exact absurd h (by simp [closedBlock])
  | case2 rest =>
    intro h
    rw [show closedBlock ('*' :: '/' :: rest) = rest.isEmpty from rfl] at h
    have hr : rest = [] := by simpa [List.isEmpty_iff] using h
    subst hr
    exact ⟨[], rfl⟩
  | case3 c cs h1 ih =>
    intro h
    rw [closedBlock_cons c cs h1] at h
    obtain ⟨ys, hy⟩ := ih h
    exact ⟨c :: ys, by rw [hy, List.cons_append]⟩

theorem closedBlock_takeBlock : ∀ b : List Char, closedBlock b = true →
    ∀ z, takeBlock (b ++ z) = (b, z) := by
  intro b
  induction b using takeBlock.induct with
  | case1 => intro h; exact absurd h (by simp [closedBlock])
  | case2 rest =>
    intro h z
    rw [show closedBlock ('*' :: '/' :: rest) = rest.isEmpty from rfl] at h
    have hr : rest = [] := by simpa [List.isEmpty_iff] using h
    subst hr
    rw [show (['*', '/'] : List Char) ++ z = '*' :: '/' :: z from rfl]
    rfl
  | case3 c cs h1 ih =>
    intro h z
    rw [closedBlock_cons c cs h1] at h
    have hne : cs ≠ [] := closed_ne_nil h
    rw [List.cons_append]
    have hside : ∀ r, c = '*' → cs ++ z = '/' :: r → False := by
      intro r hc he
      cases cs with
      | nil => exact hne rfl
      | cons x cs2 =>
        rw [List.cons_append] at he
        injection he with e1 e2
        exact h1 cs2 hc (e1 ▸ rfl)
    rw [takeBlock_cons_eq c (cs ++ z) hside, ih h z]

theorem trimLines_ws_line_nil : ∀ {l : List Char}, lineAllWs l = true →
    l.dropWhile (fun x => x != '\n') = [] → trimLines l = [] := by
  intro l
  induction l with
  | nil => intro _ _; rfl
  | cons c rest ih =>
    intro hw hd
    by_cases hc : c = '\n'
    · subst hc
      rw [List.dropWhile_cons] at hd
      simp at hd
    · rw [List.dropWhile_cons, if_pos (by simpa using hc)] at hd
      rw [lineAllWs_cons rest hc] at hw
      simp only [Bool.and_eq_true] at hw
      rw [trimLines_cons_del hw.1 hc hw.2]
      exact ih hw.2 hd

theorem trimLines_ws_line_cons : ∀ {l : List Char}, lineAllWs l = true →
    ∀ {r : List Char}, l.dropWhile (fun x => x != '\n') = '\n' :: r →
    trimLines l = '\n' :: trimLines r := by
  intro l
  induction l with
  | nil => intro _ r hd; simp [List.dropWhile] at hd
  | cons c rest ih =>
    intro hw r hd
    by_cases hc : c = '\n'
    · subst hc
      rw [List.dropWhile_cons] at hd
      simp only [bne_self_eq_false, Bool.false_eq_true, if_false] at hd
      injection hd with e1 e2
      subst e2
      rw [trimLines_cons_keep (by simp)]
    · rw [List.dropWhile_cons, if_pos (by simpa using hc)] at hd
      rw [lineAllWs_cons rest hc] at hw
      simp only [Bool.and_eq_true] at hw
      rw [trimLines_cons_del hw.1 hc hw.2]
      exact ih hw.2 hd

theorem trimLines_cons_shape (c : Char) (l : List Char) :
    trimLines (c :: l) = c :: trimLines l ∨ trimLines (c :: l) = [] ∨
      ∃ t, trimLines (c :: l) = '\n' :: t := by
  cases hg : (isPySpace c && (c != '\n') && lineAllWs l) with
  | false => exact Or.inl (trimLines_cons_keep_b hg)
  | true =>
    rw [trimLines_cons_del_b hg]
    simp only [Bool.and_eq_true] at hg
    cases hd : l.dropWhile (fun x => x != '\n') with
    | nil => exact Or.inr (Or.inl (trimLines_ws_line_nil hg.2 hd))
    | cons y r =>
      have hy : y = '\n' := dropWhile_nl_head hd
      subst hy
      exact Or.inr (Or.inr ⟨trimLines r, trimLines_ws_line_cons hg.2 hd⟩)

theorem mem_trimLines {x : Char} : ∀ {l : List Char}, x ∈ trimLines l → x ∈ l := by
  intro l
  induction l with
  | nil => intro h; simpa [trimLines] using h
  | cons c rest ih =>
    intro h
    cases hg : (isPySpace c && (c != '\n') && lineAllWs rest) with
    | true =>
      rw [trimLines_cons_del_b hg] at h
      exact List.mem_cons_of_mem c (ih h)
    | false =>
      rw [trimLines_cons_keep_b hg] at h
      rcases List.mem_cons.mp h with h1 | h1
      · exact List.mem_cons.mpr (Or.inl h1)
      · exact List.mem_cons_of_mem c (ih h1)

theorem trim_head_not (c0 : Char) {rest : List Char}
    (hno : ∀ r, rest = c0 :: r → False) (hc0 : c0 ≠ '\n') :
    ∀ r, trimLines rest = c0 :: r → False := by
  intro r htr
  cases rest with
  | nil => simp [trimLines] at htr
  | cons d rest2 =>
    rcases trimLines_cons_shape d rest2 with h1 | h1 | ⟨t, h1⟩
    · rw [h1] at htr
      injection htr with e1 e2
      exact hno rest2 (e1 ▸ rfl)
    · rw [h1] at htr
      exact absurd htr (by simp)
    · rw [h1] at htr
      injection htr with e1 e2
      exact hc0 e1.symm

theorem hss_trim : ∀ l : List Char,
    hasStarSlash l = false → hasStarSlash (trimLines l) = false := by
  intro l
  induction l with
  | nil => intro _; rfl
  | cons c rest ih =>
    intro h
    have hnotss : ∀ r, c = '*' → rest = '/' :: r → False := by
      intro r hc hr
      subst hc
      subst hr
      rw [show hasStarSlash ('*' :: '/' :: r) = true from rfl] at h
      exact absurd h (by simp)
    rw [hss_cons c rest hnotss] at h
    cases hg : (isPySpace c && (c != '\n') && lineAllWs rest) with
    | true =>
      rw [trimLines_cons_del_b hg]
      exact ih h
    | false =>
      rw [trimLines_cons_keep_b hg]
      have hside : ∀ r, c = '*' → trimLines rest = '/' :: r → False := by
        intro r hc htr
        subst hc
        exact trim_head_not '/' (fun r2 hr2 => hnotss r2 rfl hr2) (by decide) r htr
      rw [hss_cons c (trimLines rest) hside]
      exact ih h

theorem closed_trim : ∀ l : List Char,
    closedBlock l = true → closedBlock (trimLines l) = true := by
  intro l
  induction l with
  | nil => intro h; exact absurd h (by simp [closedBlock])
  | cons c rest ih =>
    intro h
    by_cases hss : ∃ r, c = '*' ∧ rest = '/' :: r
    · obtain ⟨r, hc, hr⟩ := hss
      subst hc
      subst hr
      rw [show closedBlock ('*' :: '/' :: r) = r.isEmpty from rfl] at h
      have hr0 : r = [] := by simpa [List.isEmpty_iff] using h
      subst hr0
      decide
    · have hnotss : ∀ r, c = '*' → rest = '/' :: r → False := by
        intro r hc hr
        exact hss ⟨r, hc, hr⟩
      rw [closedBlock_cons c rest hnotss] at h
      cases hg : (isPySpace c && (c != '\n') && lineAllWs rest) with
      | true =>
        rw [trimLines_cons_del_b hg]
        exact ih h
      | false =>
        rw [trimLines_cons_keep_b hg]
        have hside : ∀ r, c = '*' → trimLines rest = '/' :: r → False := by
          intro r hc htr
          subst hc
          exact trim_head_not '/' (fun r2 hr2 => hnotss r2 rfl hr2) (by decide) r htr
        rw [closedBlock_cons c (trimLines rest) hside]
        exact ih h

theorem lineAllWs_append_nonws : ∀ (a : List Char) {y : Char}, isPySpace y = false →
    ∀ z, lineAllWs (a ++ y :: z) = lineAllWs (a ++ [y]) := by
  intro a
  induction a with
  | nil =>
    intro y hy z
    have hyn : y ≠ '\n' := by
      intro hc
      rw [hc] at hy
      exact absurd hy (by decide)
    rw [List.nil_append, List.nil_append, lineAllWs_cons z hyn, lineAllWs_cons [] hyn, hy]
    simp
  | cons c a' ih =>
    intro y hy z
    by_cases hc : c = '\n'
    · subst hc
      rw [List.cons_append, List.cons_append, lineAllWs_cons_nl, lineAllWs_cons_nl]
    · rw [List.cons_append, List.cons_append, lineAllWs_cons _ hc, lineAllWs_cons _ hc,
        ih hy z]

theorem trimLines_append_nonws : ∀ (a : List Char) {y : Char}, isPySpace y = false →
    ∀ z, trimLines ((a ++ [y]) ++ z) = trimLines (a ++ [y]) ++ trimLines z := by
  intro a
  induction a with
  | nil =>
    intro y hy z
    rw [show (([] : List Char) ++ [y]) ++ z = y :: z from rfl,
      show ([] : List Char) ++ [y] = y :: [] from rfl,
      trimLines_cons_keep_b (by simp [hy]), trimLines_cons_keep_b (by simp [hy])]
    rfl
  | cons c a' ih =>
    intro y hy z
    rw [List.cons_append, List.cons_append]
    have hguard : (isPySpace c && (c != '\n') && lineAllWs ((a' ++ [y]) ++ z))
        = (isPySpace c && (c != '\n') && lineAllWs (a' ++ [y])) := by
      rw [List.append_assoc, show ([y] : List Char) ++ z = y :: z from rfl,
        lineAllWs_append_nonws a' hy z]
    cases hg : (isPySpace c && (c != '\n') && lineAllWs (a' ++ [y])) with
    | true =>
      rw [trimLines_cons_del_b (by rw [hguard]; exact hg), trimLines_cons_del_b hg]
      exact ih hy z
    | false =>
      rw [trimLines_cons_keep_b (by rw [hguard]; exact hg), trimLines_cons_keep_b hg,
        ih hy z, List.cons_append]

theorem lineAllWs_no_nl : ∀ {a : List Char}, ('\n' : Char) ∉ a →
    lineAllWs a = a.all isPySpace := by
  intro a
  induction a with
  | nil => intro _; rfl
  | cons c a' ih =>
    intro h
    have hc : c ≠ '\n' := fun hc => h (hc ▸ List.mem_cons_self c a')
    rw [lineAllWs_cons a' hc, ih (fun hm => h (List.mem_cons_of_mem c hm)), List.all_cons]

theorem lineAllWs_append_nl : ∀ {a : List Char}, ('\n' : Char) ∉ a →
    ∀ b, lineAllWs (a ++ '\n' :: b) = a.all isPySpace := by
  intro a
  induction a with
  | nil => intro _ b; rw [List.nil_append, lineAllWs_cons_nl]; rfl
  | cons c a' ih =>
    intro h b
    have hc : c ≠ '\n' := fun hc => h (hc ▸ List.mem_cons_self c a')
    rw [List.cons_append, lineAllWs_cons _ hc,
      ih (fun hm => h (List.mem_cons_of_mem c hm)) b, List.all_cons]

/-- Trimming distributes over the first newline of the text. -/
theorem trimLines_split_at_nl : ∀ {a : List Char}, ('\n' : Char) ∉ a →
    ∀ b, trimLines (a ++ '\n' :: b) = trimLines a ++ '\n' :: trimLines b := by
  intro a
  induction a with
  | nil =>
    intro _ b
    rw [List.nil_append, trimLines_cons_keep (by simp)]
    rfl
  | cons c a' ih =>
    intro h b
    have hc : c ≠ '\n' := fun hc => h (hc ▸ List.mem_cons_self c a')
    have hmem : ('\n' : Char) ∉ a' := fun hm => h (List.mem_cons_of_mem c hm)
    have hguard : (isPySpace c && (c != '\n') && lineAllWs (a' ++ '\n' :: b))
        = (isPySpace c && (c != '\n') && lineAllWs a') := by
      rw [lineAllWs_append_nl hmem b, lineAllWs_no_nl hmem]
    rw [List.cons_append]
    cases hg : (isPySpace c && (c != '\n') && lineAllWs a') with
    | true =>
      rw [trimLines_cons_del_b (by rw [hguard]; exact hg), trimLines_cons_del_b hg]
      exact ih hmem b
    | false =>
      rw [trimLines_cons_keep_b (by rw [hguard]; exact hg), trimLines_cons_keep_b hg,
        ih hmem b, List.cons_append]

/-! Scanning a run of whitespace characters inside a string literal, or in
the normal state, just accumulates it onto the line accumulator. -/

theorem noInline_inString_run (q : Char) (hq : q = '"' ∨ q = '\'') :
    ∀ (run : List Char), (∀ x ∈ run, isPySpace x = true) →
    ∀ rest lp, noInline (run ++ rest) true q lp = noInline rest true q (advLine lp run) := by
  intro run
  induction run with
  | nil => intro _ rest lp; rfl
  | cons x run' ih =>
    intro hall rest lp
    have hx := hall x (List.mem_cons_self x run')
    have hxb : x ≠ '\\' := by
      intro hcx
      rw [hcx] at hx
      exact absurd hx (by decide)
    have hxq : x ≠ q := by
      rcases hq with h | h <;>
        (subst h; intro hcx; rw [hcx] at hx; exact absurd hx (by decide))
    rw [List.cons_append, noInline_str_char x q lp _ hxb hxq,
      ih (fun y hy => hall y (List.mem_cons_of_mem x hy)) rest (updLine lp x)]
    rfl

theorem noInline_normal_run (q : Char) :
    ∀ (run : List Char), (∀ x ∈ run, isPySpace x = true) →
    ∀ rest lp, noInline (run ++ rest) false q lp = noInline rest false q (advLine lp run) := by
  intro run
  induction run with
  | nil => intro _ rest lp; rfl
  | cons x run' ih =>
    intro hall rest lp
    have hx := hall x (List.mem_cons_self x run')
    have hxq : ¬(x = '"' ∨ x = '\'') := by
      rintro (hcx | hcx) <;> (rw [hcx] at hx; exact absurd hx (by decide))
    have hxs : x ≠ '/' := by
      intro hcx
      rw [hcx] at hx
      exact absurd hx (by decide)
    rw [List.cons_append, noInline_char x q lp _ hxq hxs,
      ih (fun y hy => hall y (List.mem_cons_of_mem x hy)) rest (updLine lp x)]
    rfl

/-- The all-whitespace status of the line accumulator also transports from a
consumed chunk to its trimmed version. -/
theorem advLine_allWs_trim : ∀ (chunk lp1 lp2 : List Char),
    (lp1.all isPySpace = true → lp2.all isPySpace = true) →
    (advLine lp1 chunk).all isPySpace = true →
    (advLine lp2 (trimLines chunk)).all isPySpace = true := by
  intro chunk
  induction chunk with
  | nil => intro lp1 lp2 hinv h; exact hinv h
  | cons c ch ih =>
    intro lp1 lp2 hinv h
    cases hg : (isPySpace c && (c != '\n') && lineAllWs ch) with
    | true =>
      rw [trimLines_cons_del_b hg]
      refine ih (updLine lp1 c) lp2 ?_ h
      intro h2
      apply hinv
      simp only [Bool.and_eq_true, bne_iff_ne] at hg
      rw [updLine, if_neg hg.1.2] at h2
      simp only [List.all_append, Bool.and_eq_true] at h2
      exact h2.1
    | false =>
      rw [trimLines_cons_keep_b hg]
      exact ih (updLine lp1 c) (updLine lp2 c) (updLine_allWs c hinv) h

theorem updLine_nl (l : List Char) : updLine l '\n' = [] := by
  simp [updLine]

theorem dropWhile_nl_append {a : List Char} (h : ('\n' : Char) ∉ a) (b : List Char) :
    (a ++ '\n' :: b).dropWhile (fun x => x != '\n') = '\n' :: b := by
  induction a with
  | nil => rw [List.nil_append, List.dropWhile_cons]; simp
  | cons c a' ih =>
    have hc : c ≠ '\n' := fun hc => h (hc ▸ List.mem_cons_self c a')
    rw [List.cons_append, List.dropWhile_cons, if_pos (by simpa using hc)]
    exact ih (fun hm => h (List.mem_cons_of_mem c hm))

/-- Rescanning stays clear of the inline-drop branch after the per-line
right-trimming pass: if the scan of `v` never reaches the drop branch,
neither does the scan of its trimmed text, for any second-pass accumulator
whose all-whitespace status is implied by the first-pass one. -/
theorem noInline_trimLines : ∀ (n : Nat) (v : List Char), v.length ≤ n →
    ∀ (b : Bool) (q : Char) (lp1 lp2 : List Char),
    (b = true → q = '"' ∨ q = '\'') →
    (lp1.all isPySpace = true → lp2.all isPySpace = true) →
    noInline v b q lp1 = true → noInline (trimLines v) b q lp2 = true := by
  intro n
  induction n with
  | zero =>
    intro v hv b q lp1 lp2 _ _ _
    have hv0 : v = [] := List.length_eq_zero.mp (Nat.le_zero.mp hv)
    subst hv0
    exact noInline_nil b q lp2
  | succ n ih =>
    intro v hv b q lp1 lp2 hbq hinv h
    cases v with
    | nil => exact noInline_nil b q lp2
    | cons c rest =>
      have hrest : rest.length ≤ n := by
        simp only [List.length_cons] at hv
        omega
      cases hg : (isPySpace c && (c != '\n') && lineAllWs rest) with
      | true =>
        rw [trimLines_cons_del_b hg]
        simp only [Bool.and_eq_true, bne_iff_ne] at hg
        obtain ⟨⟨hcw, hcn⟩, hla⟩ := hg
        have hcb : c ≠ '\\' := by
          intro hc
          rw [hc] at hcw
          exact absurd hcw (by decide)
        have hcq2 : ¬(c = '"' ∨ c = '\'') := by
          rintro (hc | hc) <;> (rw [hc] at hcw; exact absurd hcw (by decide))
        have hcs : c ≠ '/' := by
          intro hc
          rw [hc] at hcw
          exact absurd hcw (by decide)
        have hinv2 : (updLine lp1 c).all isPySpace = true → lp2.all isPySpace = true := by
          intro h2
          apply hinv
          rw [updLine, if_neg hcn] at h2
          simp only [List.all_append, Bool.and_eq_true] at h2
          exact h2.1
        cases b with
        | true =>
          have hcq : c ≠ q := by
            rcases hbq rfl with hq | hq <;>
              (subst hq; intro hc; rw [hc] at hcw; exact absurd hcw (by decide))
          rw [noInline_str_char c q lp1 rest hcb hcq] at h
          exact ih rest hrest true q (updLine lp1 c) lp2 hbq hinv2 h
        | false =>
          rw [noInline_char c q lp1 rest hcq2 hcs] at h
          exact ih rest hrest false q (updLine lp1 c) lp2 hbq hinv2 h
      | false =>
        rw [trimLines_cons_keep_b hg]
        cases b with
        | true =>
          by_cases hcb : c = '\\'
          · subst hcb
            cases rest with
            | nil => exact noInline_esc_eof q lp2
            | cons w rest2 =>
              have hrest2 : rest2.length ≤ n := by
                simp only [List.length_cons] at hv
                omega
              rw [noInline_esc q w lp1 rest2] at h
              cases hgw : (isPySpace w && (w != '\n') && lineAllWs rest2) with
              | false =>
                rw [trimLines_cons_keep_b hgw, noInline_esc q w lp2 (trimLines rest2)]
                exact ih rest2 hrest2 true q (advLine lp1 ['\\', w])
                  (advLine lp2 ['\\', w]) hbq (advLine_allWs ['\\', w] hinv) h
              | true =>
                rw [trimLines_cons_del_b hgw]
                simp only [Bool.and_eq_true, bne_iff_ne] at hgw
                obtain ⟨⟨hww, hwn⟩, hla2⟩ := hgw
                cases hdp : rest2.dropWhile (fun x => x != '\n') with
                | nil =>
                  rw [trimLines_ws_line_nil hla2 hdp]
                  exact noInline_esc_eof q lp2
                | cons y rest3 =>
                  have hy : y = '\n' := dropWhile_nl_head hdp
                  subst hy
                  rw [trimLines_ws_line_cons hla2 hdp,
                    noInline_esc q '\n' lp2 (trimLines rest3),
                    show advLine lp2 ['\\', '\n'] = [] from by simp [advLine, updLine]]
                  have hsplit : rest2
                      = rest2.takeWhile (fun x => x != '\n') ++ '\n' :: rest3 := by
                    conv_lhs =>
                      rw [← List.takeWhile_append_dropWhile (fun x => x != '\n') rest2]
                    rw [hdp]
                  have hla2' : (rest2.takeWhile (fun x => x != '\n')).all isPySpace
                      = true := hla2
                  have htw : ∀ x ∈ rest2.takeWhile (fun x => x != '\n'),
                      isPySpace x = true := fun x hx => List.all_eq_true.mp hla2' x hx
                  rw [hsplit, noInline_inString_run q (hbq rfl) _ htw ('\n' :: rest3)
                    (advLine lp1 ['\\', w])] at h
                  have hnlq : ('\n' : Char) ≠ q := by
                    rcases hbq rfl with hq | hq <;> (subst hq; decide)
                  rw [noInline_str_char '\n' q _ rest3 (by decide) hnlq, updLine_nl] at h
                  have hrest3 : rest3.length ≤ n := by
                    have hlen := congrArg List.length hsplit
                    simp only [List.length_append, List.length_cons] at hlen
                    simp only [List.length_cons] at hv
                    omega
                  exact ih rest3 hrest3 true q [] [] hbq id h
          · by_cases hcq : c = q
            · subst hcq
              have hqb : c ≠ '\\' := hcb
              rw [noInline_str_close c lp1 rest hqb] at h
              rw [noInline_str_close c lp2 (trimLines rest) hqb]
              exact ih rest hrest false c (updLine lp1 c) (updLine lp2 c)
                (fun hx => absurd hx (by simp)) (updLine_allWs c hinv) h
            · rw [noInline_str_char c q lp1 rest hcb hcq] at h
              rw [noInline_str_char c q lp2 (trimLines rest) hcb hcq]
              exact ih rest hrest true q (updLine lp1 c) (updLine lp2 c) hbq
                (updLine_allWs c hinv) h
        | false =>
          by_cases hcq : c = '"' ∨ c = '\''
          · rw [noInline_quote c q lp1 rest hcq] at h
            rw [noInline_quote c q lp2 (trimLines rest) hcq]
            exact ih rest hrest true c (updLine lp1 c) (updLine lp2 c)
              (fun _ => hcq) (updLine_allWs c hinv) h
          · by_cases hcs : c = '/'
            · subst hcs
              cases rest with
              | nil => exact noInline_slash_eof q lp2
              | cons d rest2 =>
                have hrest2 : rest2.length ≤ n := by
                  simp only [List.length_cons] at hv
                  omega
                by_cases hd1 : d = '/'
                · subst hd1
                  cases hlp1 : lp1.all isPySpace with
                  | false =>
                    rw [noInline_drop q lp1 rest2 hlp1] at h
                    exact absurd h (by simp)
                  | true =>
                    rw [noInline_keep q lp1 rest2 hlp1] at h
                    rw [trimLines_cons_keep_b
                      (by simp [show isPySpace '/' = false from by decide])]
                    rw [noInline_keep q lp2 (trimLines rest2) (hinv hlp1)]
                    cases hdp : rest2.dropWhile (fun x => x != '\n') with
                    | nil =>
                      have hno : ('\n' : Char) ∉ rest2 := by
                        intro hm
                        have h2 := List.dropWhile_eq_nil_iff.mp hdp '\n' hm
                        simp at h2
                      have hno2 : ('\n' : Char) ∉ trimLines rest2 :=
                        fun hm => hno (mem_trimLines hm)
                      have hdp2 : (trimLines rest2).dropWhile (fun x => x != '\n')
                          = [] := by
                        rw [List.dropWhile_eq_nil_iff]
                        intro x hx
                        simp only [bne_iff_ne, ne_eq]
                        intro hc
                        exact hno2 (hc ▸ hx)
                      rw [hdp2]
                      exact noInline_nil false q []
                    | cons y rest3 =>
                      have hy : y = '\n' := dropWhile_nl_head hdp
                      subst hy
                      rw [hdp] at h
                      simp only [List.tail_cons] at h
                      have hsplit : rest2
                          = rest2.takeWhile (fun x => x != '\n') ++ '\n' :: rest3 := by
                        conv_lhs =>
                          rw [← List.takeWhile_append_dropWhile (fun x => x != '\n') rest2]
                        rw [hdp]
                      have hnoTw : ('\n' : Char) ∉ rest2.takeWhile (fun x => x != '\n') := by
                        intro hm
                        have h2 := all_takeWhile (fun x => x != '\n') rest2 '\n' hm
                        simp at h2
                      have htr : trimLines rest2
                          = trimLines (rest2.takeWhile (fun x => x != '\n'))
                              ++ '\n' :: trimLines rest3 := by
                        conv_lhs => rw [hsplit]
                        exact trimLines_split_at_nl hnoTw rest3
                      rw [htr]
                      have hnoTw2 : ('\n' : Char)
                          ∉ trimLines (rest2.takeWhile (fun x => x != '\n')) :=
                        fun hm => hnoTw (mem_trimLines hm)
                      rw [dropWhile_nl_append hnoTw2 (trimLines rest3), List.tail_cons]
                      have hrest3 : rest3.length ≤ n := by
                        have hlen := congrArg List.length hsplit
                        simp only [List.length_append, List.length_cons] at hlen
                        simp only [List.length_cons] at hv
                        omega
                      exact ih rest3 hrest3 false q [] []
                        (fun hx => absurd hx (by simp)) id h
                · by_cases hd2 : d = '*'
                  · subst hd2
                    rw [noInline_block q lp1 rest2] at h
                    rw [trimLines_cons_keep_b
                      (by simp [show isPySpace '*' = false from by decide])]
                    rw [noInline_block q lp2 (trimLines rest2)]
                    cases hhss : hasStarSlash rest2 with
                    | false =>
                      rw [takeBlock_of_no_close (trimLines rest2) (hss_trim rest2 hhss)]
                      exact noInline_nil false q _
                    | true =>
                      have hclosed := closed_takeBlock_fst rest2 hhss
                      have happ := takeBlock_append_eq rest2
                      obtain ⟨ys, hys⟩ := closed_shape _ hclosed
                      have hsplit2 : trimLines rest2
                          = trimLines (takeBlock rest2).1
                              ++ trimLines (takeBlock rest2).2 := by
                        conv_lhs => rw [← happ, hys]
                        rw [show (ys ++ ['*', '/']) ++ (takeBlock rest2).2
                            = ((ys ++ ['*']) ++ ['/']) ++ (takeBlock rest2).2 from by
                          simp [List.append_assoc]]
                        rw [trimLines_append_nonws (ys ++ ['*']) (by decide) _]
                        rw [show ((ys ++ ['*']) ++ ['/'] : List Char)
                            = ys ++ ['*', '/'] from by simp [List.append_assoc]]
                        rw [← hys]
                      rw [hsplit2,
                        closedBlock_takeBlock _ (closed_trim _ hclosed)
                          (trimLines (takeBlock rest2).2)]
                      have haft : (takeBlock rest2).2.length ≤ n := by
                        have h1 := takeBlock_snd_length_le rest2
                        simp only [List.length_cons] at hv
                        omega
                      refine ih (takeBlock rest2).2 haft false q
                        (advLine lp1 ('/' :: '*' :: (takeBlock rest2).1))
                        (advLine lp2 ('/' :: '*' :: trimLines (takeBlock rest2).1))
                        (fun hx => absurd hx (by simp)) ?_ h
                      intro hall
                      have h2 := advLine_allWs_trim ('/' :: '*' :: (takeBlock rest2).1)
                        lp1 lp2 hinv hall
                      rw [trimLines_cons_keep_b
                          (by simp [show isPySpace '/' = false from by decide]),
                        trimLines_cons_keep_b
                          (by simp [show isPySpace '*' = false from by decide])]
                        at h2
                      exact h2
                  · rw [noInline_slash q d lp1 rest2 hd1 hd2] at h
                    cases hgd : (isPySpace d && (d != '\n') && lineAllWs rest2) with
                    | false =>
                      rw [trimLines_cons_keep_b hgd,
                        noInline_slash q d lp2 (trimLines rest2) hd1 hd2,
                        show (d :: trimLines rest2) = trimLines (d :: rest2) from
                          (trimLines_cons_keep_b hgd).symm]
                      have hlen2 : (d :: rest2).length ≤ n := by
                        simp only [List.length_cons] at hv ⊢
                        omega
                      exact ih (d :: rest2) hlen2 false q (updLine lp1 '/')
                        (updLine lp2 '/') (fun hx => absurd hx (by simp))
                        (updLine_allWs '/' hinv) h
                    | true =>
                      rw [trimLines_cons_del_b hgd]
                      simp only [Bool.and_eq_true, bne_iff_ne] at hgd
                      obtain ⟨⟨hdw, hdn⟩, hla2⟩ := hgd
                      have hdq : ¬(d = '"' ∨ d = '\'') := by
                        rintro (hc | hc) <;> (rw [hc] at hdw; exact absurd hdw (by decide))
                      rw [noInline_char d q (updLine lp1 '/') rest2 hdq hd1] at h
                      cases hdp : rest2.dropWhile (fun x => x != '\n') with
                      | nil =>
                        rw [trimLines_ws_line_nil hla2 hdp]
                        exact noInline_slash_eof q lp2
                      | cons y rest3 =>
                        have hy : y = '\n' := dropWhile_nl_head hdp
                        subst hy
                        rw [trimLines_ws_line_cons hla2 hdp,
                          noInline_slash q '\n' lp2 (trimLines rest3)
                            (by decide) (by decide),
                          noInline_char '\n' q (updLine lp2 '/') (trimLines rest3)
                            (by decide) (by decide),
                          updLine_nl]
                        have hsplit : rest2
                            = rest2.takeWhile (fun x => x != '\n') ++ '\n' :: rest3 := by
                          conv_lhs =>
                            rw [← List.takeWhile_append_dropWhile
                              (fun x => x != '\n') rest2]
                          rw [hdp]
                        have hla2' : (rest2.takeWhile (fun x => x != '\n')).all isPySpace
                            = true := hla2
                        have htw : ∀ x ∈ rest2.takeWhile (fun x => x != '\n'),
                            isPySpace x = true :=
                          fun x hx => List.all_eq_true.mp hla2' x hx
                        rw [hsplit, noInline_normal_run q _ htw ('\n' :: rest3) _] at h
                        rw [noInline_char '\n' q _ rest3 (by decide) (by decide),
                          updLine_nl] at h
                        have hrest3 : rest3.length ≤ n := by
                          have hlen := congrArg List.length hsplit
                          simp only [List.length_append, List.length_cons] at hlen
                          simp only [List.length_cons] at hv
                          omega
                        exact ih rest3 hrest3 false q [] []
                          (fun hx => absurd hx (by simp)) id h
            · rw [noInline_char c q lp1 rest hcq hcs] at h
              rw [noInline_char c q lp2 (trimLines rest) hcq hcs]
              exact ih rest hrest false q (updLine lp1 c) (updLine lp2 c)
                (fun hx => absurd hx (by simp)) (updLine_allWs c hinv) h

/-- The output of a stripping pass rescans without ever reaching the
inline-drop branch. -/
theorem RemoveComments_noInline (t : List Char) :
    noInline (RemoveComments t) false ' ' [] = true := by
  have h1 : noInline (rmLoop t false ' ' []) false ' ' [] = true :=
    noInline_rmLoop t false ' ' [] [] id
  have h2 : RemoveComments t = trimLines (rmLoop t false ' ' []) := by
    unfold RemoveComments
    rw [trimLines_eq]
  rw [h2]
  exact noInline_trimLines (rmLoop t false ' ' []).length _ le_rfl false ' ' [] []
    (fun hx => absurd hx (by simp)) id h1

/-- C5: `RemoveComments` is idempotent. Running the comment stripper on
already-stripped text (in particular on its own output, where only
full-line `//` comments and block comments remain and every line is free of
trailing whitespace) leaves the text unchanged. -/
theorem c5_strip_idempotent (t : List Char) :
    RemoveComments (RemoveComments t) = RemoveComments t :=
  stripped_text_fixed (RemoveComments t) (RemoveComments_noInline t)
    (RemoveComments_trimmed t)

end Phoenix
